import Mathlib

/-!
# Verification of the two-phase schema evaluator (`schema_demo.py`)

This file shallowly embeds the core of `schema_demo.py`: the schema
classifier `_extract_schema`, the two evaluation passes `_evaluate_eager`
and `_evaluate_lazy`, the `create` method of `EvaluatedSchema`, and the
structural merge `deep_merge`.

Modelling choices:
* Python dicts are ordered association lists `List (String × Val)` with
  first-match lookup; Python guarantees key uniqueness, which appears as
  `dictNodup` hypotheses where a property depends on it.
* A schema value (`Val`) is a dict, a leaf tuple
  `(generator-holder, handler-name, kwargs)`, or an opaque non-dict value
  (`prim`) standing for any other Python object (integers, strings, ...).
* The generator holders `Field`, `Fieldset`, `LazyField` (and "some other
  `BaseField` subclass", which `isinstance` matches against neither type
  tuple) become the four-constructor type `Holder`; the `isinstance`
  tests against the `EAGER_TYPES` / `LAZY_TYPES` type tuples become the
  boolean predicates of the same names.
* Generator invocation `field(handler, **kwargs)` is an abstract
  parameter `gen : Gen`; a raised Python exception is `Except.error`.
  The evaluation passes return the list of invocations actually
  performed (`Call`) so that properties about what generators receive
  can be stated.
* `create` never assigns to `self`, so its state-passing embedding
  returns the evaluator value it was given as the post-state.
-/

namespace SchemaDemo

/-- The runtime class of a leaf's generator holder.  `other` stands for a
`BaseField` subclass that is neither `Field`/`Fieldset` nor `LazyField`. -/
inductive Holder where
  | field
  | fieldset
  | lazyField
  | other
deriving DecidableEq, Repr

/-- `isinstance(h, EAGER_TYPES)` where `EAGER_TYPES = (Field, Fieldset)`. -/
def EAGER_TYPES : Holder → Bool
  | .field => true
  | .fieldset => true
  | _ => false

/-- `isinstance(h, LAZY_TYPES)` where `LAZY_TYPES = (LazyField,)`. -/
def LAZY_TYPES : Holder → Bool
  | .lazyField => true
  | _ => false

/-- Python exceptions that the embedded code can raise.  `dupKwargError`
is the `TypeError: got multiple values for keyword argument` raised when
a call supplies the same keyword twice; `typeError` covers the other
`TypeError`s (unpacking a non-tuple, `dict()` of a non-dict);
`genFailure` stands for an exception raised inside a generator's own
logic. -/
inductive PyErr where
  | typeError
  | dupKwargError
  | genFailure
deriving DecidableEq, Repr

/-- A Python value as far as the evaluator's control flow can see it:
a dict, a schema leaf triple, or any other (opaque) object. -/
inductive Val where
  | prim (n : Nat)
  | tup (holder : Holder) (handler : String) (kwargs : List (String × Val))
  | vdict (entries : List (String × Val))
deriving Repr

/-- A Python dict: insertion-ordered key/value pairs ( keys unique in any
dict Python actually builds). -/
abbrev Dict := List (String × Val)

/-- `isinstance(v, dict)`. -/
def Val.isDict : Val → Bool
  | .vdict _ => true
  | _ => false

/-- First-match lookup: `d[k]` / `d.get(k)`. -/
def dictGet? (d : Dict) (k : String) : Option Val :=
  match d with
  | [] => none
  | (k', v) :: rest => if k' = k then some v else dictGet? rest k

/-- `d.get(k, default)`. -/
def dictGetD (d : Dict) (k : String) (default : Val) : Val :=
  (dictGet? d k).getD default

/-- `k in d`. -/
def hasKey (d : Dict) (k : String) : Bool :=
  match d with
  | [] => false
  | (k', _) :: rest => k' = k || hasKey rest k

/-- `d[k] = v`: replace the value at an existing key in place, append a
new key at the end (Python dict update semantics). -/
def dictSet (d : Dict) (k : String) (v : Val) : Dict :=
  match d with
  | [] => [(k, v)]
  | (k', v') :: rest => if k' = k then (k, v) :: rest else (k', v') :: dictSet rest k v

/-- `list(d.keys())`. -/
def keys (d : Dict) : List String := d.map Prod.fst

/-- `_extract_schema(schema, target_types)`: keep group nodes
unconditionally (recursing into them), keep a leaf iff
`isinstance(node[0], target_types)`.  A `prim` node is outside the
`SchemaType` annotation (in Python, `node[0]` would raise `TypeError`);
every theorem below restricts schema inputs with `isSchemaDict`. -/
def extract_schema (schema : Dict) (target_types : Holder → Bool) : Dict :=
  match schema with
  | [] => []
  | (node_name, node) :: rest =>
    match node with
    | .vdict d =>
      (node_name, .vdict (extract_schema d target_types)) :: extract_schema rest target_types
    | .tup h handler kwargs =>
      if target_types h then
        (node_name, .tup h handler kwargs) :: extract_schema rest target_types
      else
        extract_schema rest target_types
    | .prim _ => extract_schema rest target_types
termination_by sizeOf schema
decreasing_by all_goals simp_arith [*]

/-- The iteration of `deep_merge` over `d2.items()`, acting on the
accumulating `result` dict (which starts as `dict(d1)`).  When the
overlay value is a dict, `node = result.get(key, {})` is merged with it
recursively; `dict(node)` raises a `TypeError` when `node` is not a
dict. -/
def mergeList (result : Dict) (items : Dict) : Except PyErr Dict :=
  match items with
  | [] => .ok result
  | (key, value) :: rest =>
    match value with
    | .vdict v2 =>
      match dictGetD result key (.vdict []) with
      | .vdict node =>
        match mergeList node v2 with
        | .error e => .error e
        | .ok merged => mergeList (dictSet result key (.vdict merged)) rest
      | _ => .error .typeError
    | _ => mergeList (dictSet result key value) rest
termination_by sizeOf items
decreasing_by all_goals simp_arith [*]

/-- `deep_merge(d1, d2)`: copies `d1` and folds `d2` into it.  Raises a
`TypeError` when either argument is not a dict (`dict(d1)` /
`d2.items()`). -/
def deep_merge (d1 d2 : Val) : Except PyErr Dict :=
  match d1, d2 with
  | .vdict l1, .vdict l2 => mergeList l1 l2
  | _, _ => .error .typeError

/-- The reserved keyword through which every lazy invocation receives
the eager results. -/
def reservedKey : String := "_eager_data"

/-- One generator invocation as performed by the evaluator: the holder
it went through, the handler name, and the keyword arguments it
received. -/
structure Call where
  holder : Holder
  handler : String
  kwargs : Dict

/-- The external generator capability: `field(handler, **kwargs)`.
An `Except.error` is an exception raised by the generator. -/
abbrev Gen := Holder → String → Dict → Except PyErr Val

/-- `_evaluate_eager(schema)`: recursive walk invoking
`field(handler, **kwargs)` at each leaf.  Also returns the invocations
performed, in order.  A `prim` node makes the tuple unpacking
`field, handler, kwargs = node` raise a `TypeError`. -/
def evaluate_eager (gen : Gen) (schema : Dict) : Except PyErr Dict × List Call :=
  match schema with
  | [] => (.ok [], [])
  | (node_name, node) :: rest =>
    match node with
    | .vdict d =>
      match evaluate_eager gen d with
      | (.error e, tr) => (.error e, tr)
      | (.ok r, tr) =>
        match evaluate_eager gen rest with
        | (.error e, tr') => (.error e, tr ++ tr')
        | (.ok rs, tr') => (.ok ((node_name, .vdict r) :: rs), tr ++ tr')
    | .tup h handler kwargs =>
      match gen h handler kwargs with
      | .error e => (.error e, [⟨h, handler, kwargs⟩])
      | .ok v =>
        match evaluate_eager gen rest with
        | (.error e, tr) => (.error e, ⟨h, handler, kwargs⟩ :: tr)
        | (.ok rs, tr) => (.ok ((node_name, v) :: rs), ⟨h, handler, kwargs⟩ :: tr)
    | .prim _ => (.error .typeError, [])
termination_by sizeOf schema
decreasing_by all_goals simp_arith [*]

/-- `_evaluate_lazy(schema, existing_results)`: like the eager walk, but
each leaf is invoked as `field(handler, _eager_data=existing_results,
**kwargs)`; if `kwargs` itself contains `"_eager_data"` the call raises
the duplicate-keyword `TypeError` before the generator runs. -/
def evaluate_lazy (gen : Gen) (schema : Dict) (existing_results : Dict) :
    Except PyErr Dict × List Call :=
  match schema with
  | [] => (.ok [], [])
  | (node_name, node) :: rest =>
    match node with
    | .vdict d =>
      match evaluate_lazy gen d existing_results with
      | (.error e, tr) => (.error e, tr)
      | (.ok r, tr) =>
        match evaluate_lazy gen rest existing_results with
        | (.error e, tr') => (.error e, tr ++ tr')
        | (.ok rs, tr') => (.ok ((node_name, .vdict r) :: rs), tr ++ tr')
    | .tup h handler kwargs =>
      if hasKey kwargs reservedKey then (.error .dupKwargError, [])
      else
        let callKwargs : Dict := (reservedKey, .vdict existing_results) :: kwargs
        match gen h handler callKwargs with
        | .error e => (.error e, [⟨h, handler, callKwargs⟩])
        | .ok v =>
          match evaluate_lazy gen rest existing_results with
          | (.error e, tr) => (.error e, ⟨h, handler, callKwargs⟩ :: tr)
          | (.ok rs, tr) => (.ok ((node_name, v) :: rs), ⟨h, handler, callKwargs⟩ :: tr)
    | .prim _ => (.error .typeError, [])
termination_by sizeOf schema
decreasing_by all_goals simp_arith [*]

/-- The evaluator's stored state: the two classified sub-schemas. -/
structure EvaluatedSchema where
  eager_schema : Dict
  lazy_schema : Dict

/-- `EvaluatedSchema.__init__`: classify the schema once, at
construction time. -/
def EvaluatedSchema.init (schema : Dict) : EvaluatedSchema :=
  { eager_schema := extract_schema schema EAGER_TYPES
    lazy_schema := extract_schema schema LAZY_TYPES }

/-- `create()`: eager pass, then lazy pass over the full eager results,
then `deep_merge`.  Returns the result (or the propagated exception),
the generator invocations performed in order, and the post-state of
`self` — the method body assigns nothing to `self`, so the post-state is
the evaluator it was given. -/
def create (e : EvaluatedSchema) (gen : Gen) :
    Except PyErr Dict × List Call × EvaluatedSchema :=
  match evaluate_eager gen e.eager_schema with
  | (.error err, tr) => (.error err, tr, e)
  | (.ok eager_results, tr) =>
    match evaluate_lazy gen e.lazy_schema eager_results with
    | (.error err, tr') => (.error err, tr ++ tr', e)
    | (.ok lazy_results, tr') =>
      (deep_merge (.vdict eager_results) (.vdict lazy_results), tr ++ tr', e)

/-! ## Well-formedness predicates

Python dicts cannot hold duplicate keys, and the `SchemaType` annotation
restricts schema values to leaf tuples and nested dicts; these appear as
decidable boolean predicates used as hypotheses. -/

mutual

/-- Keys are unique in this dict and, recursively, in every dict value
inside it.  Leaf tuples are opaque to the evaluator, so their argument
mappings are not constrained. -/
def dictNodup : Dict → Bool
  | [] => true
  | (k, v) :: rest => !hasKey rest k && valNodup v && dictNodup rest

/-- See `dictNodup`. -/
def valNodup : Val → Bool
  | .vdict d => dictNodup d
  | _ => true

end

mutual

/-- The value is a `SchemaType` dict: every entry is a leaf tuple or,
recursively, a schema dict. -/
def isSchemaDict : Dict → Bool
  | [] => true
  | (_, v) :: rest => isSchemaNode v && isSchemaDict rest

/-- See `isSchemaDict`. -/
def isSchemaNode : Val → Bool
  | .prim _ => false
  | .tup _ _ _ => true
  | .vdict d => isSchemaDict d

end

mutual

/-- Every leaf's holder matches exactly one of the `EAGER_TYPES` and
`LAZY_TYPES` type tuples. -/
def leavesClassifiedDict : Dict → Bool
  | [] => true
  | (_, v) :: rest => leavesClassifiedNode v && leavesClassifiedDict rest

/-- See `leavesClassifiedDict`. -/
def leavesClassifiedNode : Val → Bool
  | .tup h _ _ => xor (EAGER_TYPES h) (LAZY_TYPES h)
  | .vdict d => leavesClassifiedDict d
  | .prim _ => true

end

mutual

/-- No leaf's static argument mapping contains the reserved key
`"_eager_data"`. -/
def reservedFreeDict : Dict → Bool
  | [] => true
  | (_, v) :: rest => reservedFreeNode v && reservedFreeDict rest

/-- See `reservedFreeDict`. -/
def reservedFreeNode : Val → Bool
  | .tup _ _ kwargs => !hasKey kwargs reservedKey
  | .vdict d => reservedFreeDict d
  | .prim _ => true

end

mutual

/-- Every leaf holder in the tree satisfies `t`. -/
def allLeavesHolderDict (d : Dict) (t : Holder → Bool) : Bool :=
  match d with
  | [] => true
  | (_, v) :: rest => allLeavesHolderNode v t && allLeavesHolderDict rest t

/-- See `allLeavesHolderDict`. -/
def allLeavesHolderNode (v : Val) (t : Holder → Bool) : Bool :=
  match v with
  | .tup h _ _ => t h
  | .vdict d => allLeavesHolderDict d t
  | .prim _ => true

end

mutual

/-- Some leaf at some depth is a `LazyField` leaf whose static argument
mapping already contains the reserved key `"_eager_data"`. -/
def hasDupKwargLeafDict : Dict → Bool
  | [] => false
  | (_, v) :: rest => hasDupKwargLeafNode v || hasDupKwargLeafDict rest

/-- See `hasDupKwargLeafDict`. -/
def hasDupKwargLeafNode : Val → Bool
  | .tup h _ kwargs => LAZY_TYPES h && hasKey kwargs reservedKey
  | .vdict d => hasDupKwargLeafDict d
  | .prim _ => false

end

/-- Keys are unique at the top level of this dict (no recursion into
values). -/
def nodupTop : Dict → Bool
  | [] => true
  | (k, _) :: rest => !hasKey rest k && nodupTop rest

/-- All keys occurring anywhere in the tree, at every nesting level. -/
def allKeys : Dict → List String
  | [] => []
  | (k, .vdict d) :: rest => (k :: allKeys d) ++ allKeys rest
  | (k, _) :: rest => k :: allKeys rest
termination_by d => sizeOf d
decreasing_by all_goals simp_arith [*]

/-- The two trees share no keys at any nesting level. -/
def disjointDeep (b o : Dict) : Bool :=
  (allKeys b).all (fun k => decide (k ∉ allKeys o))

/-- Structural equality of trees up to dict key order: non-dict values
must be identical, dicts must have the same key set and recursively
equivalent values at every shared key.  This is Python's `==` on the
nested dicts the evaluator builds. -/
inductive ValEquiv : Val → Val → Prop where
  | prim (n : Nat) : ValEquiv (.prim n) (.prim n)
  | tup (h : Holder) (nm : String) (kw : Dict) : ValEquiv (.tup h nm kw) (.tup h nm kw)
  | vdict (m s : Dict)
      (hk : ∀ k, hasKey m k = hasKey s k)
      (hv : ∀ k vm vs, dictGet? m k = some vm → dictGet? s k = some vs → ValEquiv vm vs) :
      ValEquiv (.vdict m) (.vdict s)

/-! ## Heap-instrumented model of `_extract_schema`

In Python every dict and tuple is a heap object with an identity, and
the claim that `_extract_schema` returns freshly allocated group dicts
while sharing (not copying) the leaf tuples is about those identities.
The classifier is therefore repeated over an address-decorated schema:
a leaf node is the address of its `(holder, name, kwargs)` tuple object,
a group node carries the address of its dict object together with its
entries.  Allocation appends to an append-only store of dict objects
(the order in which fresh addresses are handed out is a modelling
choice; the claim depends only on freshness and sharing), so "no
existing object is mutated" appears as the original store being a
prefix of the final one. -/

/-- A schema tree decorated with the heap addresses of the Python
objects its nodes denote. -/
inductive HTree where
  | leaf (addr : Nat)
  | group (addr : Nat) (entries : List (String × HTree))

/-- The contents of a leaf tuple object: the generator holder (all
`isinstance` ever inspects), the handler name, and the address of the
kwargs dict (which the classifier never dereferences or copies). -/
structure HLeaf where
  holder : Holder
  handler : String
  kwargsAddr : Nat

/-- The store of leaf tuple objects, indexed by address; the classifier
only reads `node[0]` from it. -/
abbrev LeafStore := List HLeaf

/-- A reference held inside a dict object. -/
inductive HRef where
  | leafRef (addr : Nat)
  | groupRef (addr : Nat)

/-- The heap of dict objects, indexed by address; allocation appends. -/
abbrev DictStore := List (List (String × HRef))

/-- The value a dict object stores for a list of entries: only the
references, not the sub-structure. -/
def entriesRefs (entries : List (String × HTree)) : List (String × HRef) :=
  entries.map (fun p => (p.1, match p.2 with
    | .leaf a => HRef.leafRef a
    | .group a _ => HRef.groupRef a))

/-- `_extract_schema` over the heap: walk the entries in order; for a
group, recursively extract it and allocate a fresh dict object for the
result, keeping the key unconditionally; for a leaf, test
`isinstance(node[0], target_types)` on the holder read from the leaf
store and either share the leaf's address or drop the key.  Returns the
extended store and the extracted entries. -/
def extractHD (ls : LeafStore) (t : Holder → Bool) (st : DictStore) :
    List (String × HTree) → DictStore × List (String × HTree)
  | [] => (st, [])
  | (node_name, node) :: rest =>
    match node with
    | .group _ d =>
      let p := extractHD ls t st d
      let q := extractHD ls t (p.1 ++ [entriesRefs p.2]) rest
      (q.1, (node_name, .group p.1.length p.2) :: q.2)
    | .leaf a =>
      if t (ls.getD a ⟨.other, "", 0⟩).holder then
        let q := extractHD ls t st rest
        (q.1, (node_name, .leaf a) :: q.2)
      else
        extractHD ls t st rest
termination_by schema => sizeOf schema
decreasing_by all_goals simp_arith [*]

/-- A full `_extract_schema` call over the heap: extract the entries and
allocate the fresh dict object (`extracted_schema = {}`) the function
returns. -/
def extract_schemaH (ls : LeafStore) (t : Holder → Bool) (st : DictStore)
    (schema : List (String × HTree)) : DictStore × HTree :=
  let p := extractHD ls t st schema
  (p.1 ++ [entriesRefs p.2], .group p.1.length p.2)

mutual

/-- The addresses of all group dict objects in the tree. -/
def groupAddrsT : HTree → List Nat
  | .leaf _ => []
  | .group a entries => a :: groupAddrsD entries

/-- See `groupAddrsT`. -/
def groupAddrsD : List (String × HTree) → List Nat
  | [] => []
  | (_, v) :: rest => groupAddrsT v ++ groupAddrsD rest

end

mutual

/-- The addresses of all leaf tuple objects in the tree. -/
def leafAddrsT : HTree → List Nat
  | .leaf a => [a]
  | .group _ entries => leafAddrsD entries

/-- See `leafAddrsT`. -/
def leafAddrsD : List (String × HTree) → List Nat
  | [] => []
  | (_, v) :: rest => leafAddrsT v ++ leafAddrsD rest

end

mutual

/-- Erase addresses, mapping a decorated tree back to the plain model:
a leaf becomes its tuple (kwargs elided — the classifier never looks at
them), a group its dict. -/
def eraseT (ls : LeafStore) : HTree → Val
  | .leaf a => .tup (ls.getD a ⟨.other, "", 0⟩).holder (ls.getD a ⟨.other, "", 0⟩).handler []
  | .group _ entries => .vdict (eraseD ls entries)

/-- See `eraseT`. -/
def eraseD (ls : LeafStore) : List (String × HTree) → Dict
  | [] => []
  | (k, v) :: rest => (k, eraseT ls v) :: eraseD ls rest

end

/-! ## Basic dict lemmas -/

theorem hasKey_iff_mem_keys {d : Dict} {k : String} :
    hasKey d k = true ↔ k ∈ keys d := by
  induction d with
  | nil => simp [hasKey, keys]
  | cons p rest ih =>
    obtain ⟨k', v⟩ := p
    simp [hasKey, keys, ih]
    constructor
    · rintro (h | h)
      · exact Or.inl h.symm
      · exact Or.inr h
    · rintro (h | h)
      · exact Or.inl h.symm
      · exact Or.inr h

theorem dictGet?_eq_none_iff {d : Dict} {k : String} :
    dictGet? d k = none ↔ hasKey d k = false := by
  induction d with
  | nil => simp [dictGet?, hasKey]
  | cons p rest ih =>
    obtain ⟨k', v⟩ := p
    by_cases h : k' = k <;> simp [dictGet?, hasKey, h, ih]

theorem dictGet?_isSome_iff {d : Dict} {k : String} :
    (dictGet? d k).isSome = hasKey d k := by
  cases hk : hasKey d k
  · simp [Option.isSome_iff_exists, dictGet?_eq_none_iff.mpr hk]
  · cases hg : dictGet? d k
    · rw [dictGet?_eq_none_iff] at hg; rw [hg] at hk; cases hk
    · simp

theorem dictGet?_dictSet_same {d : Dict} {k : String} {v : Val} :
    dictGet? (dictSet d k v) k = some v := by
  induction d with
  | nil => simp [dictSet, dictGet?]
  | cons p rest ih =>
    obtain ⟨k', v'⟩ := p
    by_cases h : k' = k <;> simp [dictSet, dictGet?, h, ih]

theorem dictGet?_dictSet_other {d : Dict} {k k' : String} {v : Val} (h : k ≠ k') :
    dictGet? (dictSet d k v) k' = dictGet? d k' := by
  induction d with
  | nil => simp [dictSet, dictGet?, h]
  | cons p rest ih =>
    obtain ⟨k'', v'⟩ := p
    by_cases h2 : k'' = k
    · subst h2; simp [dictSet, dictGet?, h]
    · simp only [dictSet, if_neg h2]
      by_cases h3 : k'' = k' <;> simp [dictGet?, h3, ih]

theorem hasKey_dictSet {d : Dict} {k k' : String} {v : Val} :
    hasKey (dictSet d k v) k' = (hasKey d k' || k = k') := by
  induction d with
  | nil => by_cases h : k = k' <;> simp [dictSet, hasKey, h]
  | cons p rest ih =>
    obtain ⟨k'', v'⟩ := p
    by_cases h2 : k'' = k
    · subst h2
      simp only [dictSet, if_pos rfl, hasKey]
      by_cases h3 : k'' = k' <;> simp [h3]
    · simp only [dictSet, if_neg h2, hasKey, ih]
      by_cases h3 : k'' = k' <;> simp [h3, Bool.or_assoc]

theorem dictSet_of_not_hasKey {d : Dict} {k : String} {v : Val} (h : hasKey d k = false) :
    dictSet d k v = d ++ [(k, v)] := by
  induction d with
  | nil => simp [dictSet]
  | cons p rest ih =>
    obtain ⟨k', v'⟩ := p
    simp [hasKey] at h
    simp [dictSet, h.1, ih h.2]

theorem dictGet?_append {d1 d2 : Dict} {k : String} :
    dictGet? (d1 ++ d2) k = if hasKey d1 k then dictGet? d1 k else dictGet? d2 k := by
  induction d1 with
  | nil => simp [hasKey, dictGet?]
  | cons p rest ih =>
    obtain ⟨k', v⟩ := p
    by_cases h : k' = k <;> simp [dictGet?, hasKey, h, ih]

theorem hasKey_append {d1 d2 : Dict} {k : String} :
    hasKey (d1 ++ d2) k = (hasKey d1 k || hasKey d2 k) := by
  induction d1 with
  | nil => simp [hasKey]
  | cons p rest ih =>
    obtain ⟨k', v⟩ := p
    by_cases h : k' = k <;> simp [hasKey, h, ih]

theorem sizeOf_dictGet? {d : Dict} {k : String} {v : Val} (h : dictGet? d k = some v) :
    sizeOf v < sizeOf d := by
  induction d with
  | nil => simp [dictGet?] at h
  | cons p rest ih =>
    obtain ⟨k', v'⟩ := p
    by_cases h2 : k' = k
    · simp [dictGet?, h2] at h
      subst h
      simp_arith
    · simp [dictGet?, h2] at h
      have := ih h
      simp_arith
      omega

/-! ## Lemmas about `_extract_schema` -/

theorem hasKey_extract_imp {S : Dict} {t : Holder → Bool} {k : String}
    (h : hasKey (extract_schema S t) k = true) : hasKey S k = true := by
  induction S with
  | nil => simp [extract_schema, hasKey] at h
  | cons p rest ih =>
    obtain ⟨k', node⟩ := p
    cases node with
    | prim n =>
      simp only [extract_schema] at h
      simp [hasKey, ih h]
    | tup h' nm kw =>
      by_cases ht : t h'
      · simp only [extract_schema, ht, if_true] at h
        simp only [hasKey, Bool.or_eq_true] at h ⊢
        exact h.imp id ih
      · simp only [extract_schema, ht, Bool.false_eq_true, if_false] at h
        simp [hasKey, ih h]
    | vdict d =>
      simp only [extract_schema, hasKey, Bool.or_eq_true] at h ⊢
      exact h.imp id ih

theorem hasKey_extract_false {S : Dict} {t : Holder → Bool} {k : String}
    (h : hasKey S k = false) : hasKey (extract_schema S t) k = false := by
  cases he : hasKey (extract_schema S t) k
  · rfl
  · rw [hasKey_extract_imp he] at h; cases h

theorem extract_group_key {S : Dict} {t : Holder → Bool} {k : String} {g : Dict}
    (hg : dictGet? S k = some (.vdict g)) :
    dictGet? (extract_schema S t) k = some (.vdict (extract_schema g t)) := by
  induction S with
  | nil => simp [dictGet?] at hg
  | cons p rest ih =>
    obtain ⟨k', node⟩ := p
    by_cases hk : k' = k
    · subst hk
      simp [dictGet?] at hg
      subst hg
      simp [extract_schema, dictGet?]
    · simp only [dictGet?, if_neg hk] at hg
      cases node with
      | prim n => simpa [extract_schema] using ih hg
      | tup h nm kw =>
        by_cases ht : t h <;> simp [extract_schema, ht, dictGet?, hk, ih hg]
      | vdict d => simp [extract_schema, dictGet?, hk, ih hg]

theorem extract_leaf_key {S : Dict} {t : Holder → Bool} {k : String} {h : Holder}
    {nm : String} {kw : Dict} (hn : dictNodup S = true)
    (hg : dictGet? S k = some (.tup h nm kw)) :
    dictGet? (extract_schema S t) k = if t h then some (.tup h nm kw) else none := by
  induction S with
  | nil => simp [dictGet?] at hg
  | cons p rest ih =>
    obtain ⟨k', node⟩ := p
    simp only [dictNodup, Bool.and_eq_true, Bool.not_eq_true'] at hn
    by_cases hk : k' = k
    · subst hk
      simp [dictGet?] at hg
      subst hg
      by_cases ht : t h
      · simp [extract_schema, ht, dictGet?]
      · have : hasKey (extract_schema rest t) k' = false := hasKey_extract_false hn.1.1
        simp [extract_schema, ht, dictGet?_eq_none_iff.mpr this]
    · simp only [dictGet?, if_neg hk] at hg
      have ihr := ih hn.2 hg
      cases node with
      | prim n => simpa [extract_schema] using ihr
      | tup h' nm' kw' =>
        by_cases ht : t h' <;> simp [extract_schema, ht, dictGet?, hk, ihr]
      | vdict d => simp [extract_schema, dictGet?, hk, ihr]

theorem allLeavesHolder_extract (S : Dict) (t : Holder → Bool) :
    allLeavesHolderDict (extract_schema S t) t = true := by
  induction S, t using extract_schema.induct <;>
    simp_all [extract_schema, allLeavesHolderDict, allLeavesHolderNode]

theorem isSchemaDict_extract {S : Dict} {t : Holder → Bool}
    (h : isSchemaDict S = true) : isSchemaDict (extract_schema S t) = true := by
  induction S, t using extract_schema.induct <;>
    simp_all [extract_schema, isSchemaDict, isSchemaNode]

theorem reservedFree_extract {S : Dict} {t : Holder → Bool}
    (h : reservedFreeDict S = true) : reservedFreeDict (extract_schema S t) = true := by
  induction S, t using extract_schema.induct <;>
    simp_all [extract_schema, reservedFreeDict, reservedFreeNode]

theorem dictNodup_extract {S : Dict} {t : Holder → Bool}
    (h : dictNodup S = true) : dictNodup (extract_schema S t) = true := by
  induction S, t using extract_schema.induct <;>
    simp_all [extract_schema, dictNodup, valNodup, hasKey_extract_false]

/-! ## Step equations for `mergeList` -/

theorem mergeList_nil (r : Dict) : mergeList r [] = .ok r := by
  simp [mergeList]

theorem mergeList_cons_nondict {v : Val} (hv : v.isDict = false) (r : Dict) (k : String)
    (rest : Dict) : mergeList r ((k, v) :: rest) = mergeList (dictSet r k v) rest := by
  cases v with
  | prim n => simp only [mergeList]
  | tup h nm kw => simp only [mergeList]
  | vdict d => simp [Val.isDict] at hv

theorem mergeList_cons_dict_ok {r : Dict} {k : String} {v2 node merged : Dict}
    (hd : dictGetD r k (.vdict []) = .vdict node) (hm : mergeList node v2 = .ok merged)
    (rest : Dict) :
    mergeList r ((k, .vdict v2) :: rest) = mergeList (dictSet r k (.vdict merged)) rest := by
  simp only [mergeList, hd, hm]

theorem mergeList_cons_dict_err {r : Dict} {k : String} {v2 node : Dict} {e : PyErr}
    (hd : dictGetD r k (.vdict []) = .vdict node) (hm : mergeList node v2 = .error e)
    (rest : Dict) :
    mergeList r ((k, .vdict v2) :: rest) = .error e := by
  simp only [mergeList, hd, hm]

theorem mergeList_cons_dict_bad {r : Dict} {k : String} {v2 : Dict}
    (hd : (dictGetD r k (.vdict [])).isDict = false) (rest : Dict) :
    mergeList r ((k, .vdict v2) :: rest) = .error .typeError := by
  cases hv : dictGetD r k (.vdict []) with
  | prim n => simp only [mergeList, hv]
  | tup h nm kw => simp only [mergeList, hv]
  | vdict d => rw [hv] at hd; simp [Val.isDict] at hd

theorem dictGetD_of_not_hasKey {r : Dict} {k : String} {v : Val}
    (h : hasKey r k = false) : dictGetD r k v = v := by
  simp [dictGetD, dictGet?_eq_none_iff.mpr h]

/-! ## Structural lemmas about `mergeList` -/

theorem mergeList_append (xs ys : Dict) :
    ∀ r : Dict, mergeList r (xs ++ ys) = (mergeList r xs).bind (fun m => mergeList m ys) := by
  induction xs with
  | nil => intro r; rw [List.nil_append, mergeList_nil]; rfl
  | cons p rest ih =>
    intro r
    obtain ⟨key, value⟩ := p
    cases value with
    | prim n =>
      rw [List.cons_append, mergeList_cons_nondict (show (Val.prim n).isDict = false from rfl),
        mergeList_cons_nondict (show (Val.prim n).isDict = false from rfl)]
      exact ih _
    | tup h nm kw =>
      rw [List.cons_append, mergeList_cons_nondict (show (Val.tup h nm kw).isDict = false from rfl),
        mergeList_cons_nondict (show (Val.tup h nm kw).isDict = false from rfl)]
      exact ih _
    | vdict v2 =>
      cases hd : dictGetD r key (.vdict []) with
      | vdict node =>
        cases hm : mergeList node v2 with
        | error e =>
          rw [List.cons_append, mergeList_cons_dict_err hd hm, mergeList_cons_dict_err hd hm]
          rfl
        | ok merged =>
          rw [List.cons_append, mergeList_cons_dict_ok hd hm, mergeList_cons_dict_ok hd hm]
          exact ih _
      | prim n =>
        rw [List.cons_append, mergeList_cons_dict_bad (by rw [hd]; rfl),
          mergeList_cons_dict_bad (by rw [hd]; rfl)]
        rfl
      | tup h nm kw =>
        rw [List.cons_append, mergeList_cons_dict_bad (by rw [hd]; rfl),
          mergeList_cons_dict_bad (by rw [hd]; rfl)]
        rfl

theorem mergeList_frame {k : String} : ∀ {items r r' : Dict},
    mergeList r items = .ok r' → hasKey items k = false →
    dictGet? r' k = dictGet? r k := by
  intro items
  induction items with
  | nil =>
    intro r r' hm _
    rw [mergeList_nil] at hm
    cases hm
    rfl
  | cons p rest ih =>
    intro r r' hm hk
    obtain ⟨key, value⟩ := p
    simp only [hasKey, Bool.or_eq_false_iff, decide_eq_false_iff_not] at hk
    cases value with
    | prim n =>
      rw [mergeList_cons_nondict (show (Val.prim n).isDict = false from rfl)] at hm
      rw [ih hm hk.2, dictGet?_dictSet_other hk.1]
    | tup h nm kw =>
      rw [mergeList_cons_nondict (show (Val.tup h nm kw).isDict = false from rfl)] at hm
      rw [ih hm hk.2, dictGet?_dictSet_other hk.1]
    | vdict v2 =>
      cases hd : dictGetD r key (.vdict []) with
      | vdict node =>
        cases hmm : mergeList node v2 with
        | error e => rw [mergeList_cons_dict_err hd hmm] at hm; cases hm
        | ok merged =>
          rw [mergeList_cons_dict_ok hd hmm] at hm
          rw [ih hm hk.2, dictGet?_dictSet_other hk.1]
      | prim n => rw [mergeList_cons_dict_bad (by rw [hd]; rfl)] at hm; cases hm
      | tup h nm kw => rw [mergeList_cons_dict_bad (by rw [hd]; rfl)] at hm; cases hm

theorem hasKey_mergeList {k : String} : ∀ {items r r' : Dict},
    mergeList r items = .ok r' →
    hasKey r' k = (hasKey r k || hasKey items k) := by
  intro items
  induction items with
  | nil =>
    intro r r' hm
    rw [mergeList_nil] at hm
    cases hm
    simp [hasKey]
  | cons p rest ih =>
    intro r r' hm
    obtain ⟨key, value⟩ := p
    cases value with
    | prim n =>
      rw [mergeList_cons_nondict (show (Val.prim n).isDict = false from rfl)] at hm
      rw [ih hm, hasKey_dictSet]
      simp [hasKey, Bool.or_assoc]
    | tup h nm kw =>
      rw [mergeList_cons_nondict (show (Val.tup h nm kw).isDict = false from rfl)] at hm
      rw [ih hm, hasKey_dictSet]
      simp [hasKey, Bool.or_assoc]
    | vdict v2 =>
      cases hd : dictGetD r key (.vdict []) with
      | vdict node =>
        cases hmm : mergeList node v2 with
        | error e => rw [mergeList_cons_dict_err hd hmm] at hm; cases hm
        | ok merged =>
          rw [mergeList_cons_dict_ok hd hmm] at hm
          rw [ih hm, hasKey_dictSet]
          simp [hasKey, Bool.or_assoc]
      | prim n => rw [mergeList_cons_dict_bad (by rw [hd]; rfl)] at hm; cases hm
      | tup h nm kw => rw [mergeList_cons_dict_bad (by rw [hd]; rfl)] at hm; cases hm

theorem mergeList_fresh : ∀ {items r : Dict}, dictNodup items = true →
    (∀ k, hasKey items k = true → hasKey r k = false) →
    mergeList r items = .ok (r ++ items) := by
  intro items r
  induction r, items using mergeList.induct with
  | case1 r =>
    intro _ _
    simp [mergeList_nil]
  | case2 r key rest v2 node hd e hm ih =>
    intro hn hf
    exfalso
    have hfresh : hasKey r key = false := hf key (by simp [hasKey])
    rw [dictGetD_of_not_hasKey hfresh] at hd
    cases hd
    simp only [dictNodup, valNodup, Bool.and_eq_true] at hn
    rw [ih hn.1.2 (fun k _ => rfl)] at hm
    cases hm
  | case3 r key rest v2 node hd merged hm ih1 ih2 =>
    intro hn hf
    have hfresh : hasKey r key = false := hf key (by simp [hasKey])
    have hd0 : dictGetD r key (.vdict []) = .vdict [] := dictGetD_of_not_hasKey hfresh
    rw [hd0] at hd
    cases hd
    simp only [dictNodup, valNodup, Bool.and_eq_true, Bool.not_eq_true'] at hn
    have hv2 : mergeList [] v2 = .ok v2 := by
      simpa using ih1 hn.1.2 (fun k _ => rfl)
    rw [hv2] at hm
    cases hm
    rw [mergeList_cons_dict_ok hd0 hv2]
    have hset : dictSet r key (Val.vdict v2) = r ++ [(key, Val.vdict v2)] :=
      dictSet_of_not_hasKey hfresh
    rw [hset] at ih2 ⊢
    have hrest : mergeList (r ++ [(key, Val.vdict v2)]) rest
        = .ok ((r ++ [(key, Val.vdict v2)]) ++ rest) := by
      apply ih2 hn.2
      intro k hkr
      rw [hasKey_append]
      have hrk : hasKey r k = false := hf k (by simp [hasKey, hkr])
      have hkk : ¬ key = k := by
        intro hkey
        subst hkey
        rw [hn.1.1] at hkr
        cases hkr
      simp [hrk, hasKey, hkk]
    rw [hrest]
    simp
  | case4 r key rest v2 hbad =>
    intro hn hf
    exfalso
    have hfresh : hasKey r key = false := hf key (by simp [hasKey])
    exact hbad [] (dictGetD_of_not_hasKey hfresh)
  | case5 r key v rest hnd ih =>
    intro hn hf
    have hfresh : hasKey r key = false := hf key (by simp [hasKey])
    have hvnd : v.isDict = false := by
      cases v with
      | vdict d => exact absurd rfl (hnd d)
      | prim n => rfl
      | tup h nm kw => rfl
    rw [mergeList_cons_nondict hvnd]
    simp only [dictNodup, Bool.and_eq_true, Bool.not_eq_true'] at hn
    have hset : dictSet r key v = r ++ [(key, v)] := dictSet_of_not_hasKey hfresh
    rw [hset] at ih ⊢
    have hrest : mergeList (r ++ [(key, v)]) rest = .ok ((r ++ [(key, v)]) ++ rest) := by
      apply ih hn.2
      intro k hkr
      rw [hasKey_append]
      have hrk : hasKey r k = false := hf k (by simp [hasKey, hkr])
      have hkk : ¬ key = k := by
        intro hkey
        subst hkey
        rw [hn.1.1] at hkr
        cases hkr
      simp [hrk, hasKey, hkk]
    rw [hrest]
    simp

/-! ## Claim C5 -/

/-- Claim C5: `_extract_schema` keeps each group key unconditionally —
for every schema tree, target-kinds set, and key at which the schema
holds a group, the extraction holds, at that same key, the (possibly
empty) extraction of that group; the key is never absent. -/
theorem C5_empty_group_kept (S : Dict) (t : Holder → Bool) (k : String) (g : Dict)
    (hg : dictGet? S k = some (.vdict g)) :
    dictGet? (extract_schema S t) k = some (.vdict (extract_schema g t)) :=
  extract_group_key hg

/-- Witness for C5, on the spec's own example: classifying
`{"owner": {"email": <lazy leaf>}}` for `EAGER_TYPES` yields
`{"owner": {}}` — the key `"owner"` maps to an empty group. -/
theorem C5_empty_group_kept_witness :
    dictGet? [("owner", Val.vdict [("email", Val.tup .lazyField "custom_email"
        [("domains", Val.prim 0)])])] "owner"
      = some (.vdict [("email", Val.tup .lazyField "custom_email" [("domains", Val.prim 0)])]) ∧
    dictGet? (extract_schema [("owner", Val.vdict [("email", Val.tup .lazyField "custom_email"
        [("domains", Val.prim 0)])])] EAGER_TYPES) "owner"
      = some (.vdict (extract_schema [("email", Val.tup .lazyField "custom_email"
        [("domains", Val.prim 0)])] EAGER_TYPES)) := by
  refine ⟨by simp [dictGet?], C5_empty_group_kept _ _ _ _ (by simp [dictGet?])⟩

/-! ## Claim C3: the per-key contract of `deep_merge` -/

theorem dictGet?_split {d : Dict} {k : String} {v : Val} (h : dictGet? d k = some v) :
    ∃ pre post, d = pre ++ (k, v) :: post ∧ hasKey pre k = false := by
  induction d with
  | nil => simp [dictGet?] at h
  | cons p rest ih =>
    obtain ⟨k', v'⟩ := p
    by_cases hk : k' = k
    · subst hk
      simp [dictGet?] at h
      subst h
      exact ⟨[], rest, rfl, rfl⟩
    · simp only [dictGet?, if_neg hk] at h
      obtain ⟨pre, post, heq, hpre⟩ := ih h
      refine ⟨(k', v') :: pre, post, by rw [heq]; rfl, ?_⟩
      simp [hasKey, hk, hpre]

theorem hasKey_post_of_nodup : ∀ {pre post : Dict} {k : String} {v : Val},
    dictNodup (pre ++ (k, v) :: post) = true → hasKey post k = false := by
  intro pre
  induction pre with
  | nil =>
    intro post k v hn
    simp only [List.nil_append, dictNodup, Bool.and_eq_true, Bool.not_eq_true'] at hn
    exact hn.1.1
  | cons p rest ih =>
    intro post k v hn
    obtain ⟨k', v'⟩ := p
    simp only [List.cons_append, dictNodup, Bool.and_eq_true] at hn
    exact ih hn.2

theorem mergeList_ok_of_append {r : Dict} {xs ys : Dict} {r' : Dict}
    (h : mergeList r (xs ++ ys) = .ok r') :
    ∃ r₁, mergeList r xs = .ok r₁ ∧ mergeList r₁ ys = .ok r' := by
  rw [mergeList_append] at h
  cases hx : mergeList r xs with
  | error e => rw [hx] at h; cases h
  | ok r₁ =>
    rw [hx] at h
    exact ⟨r₁, rfl, h⟩

theorem mergeList_get_overlay_nondict {base overlay r : Dict} {k : String} {v : Val}
    (ho : dictNodup overlay = true) (hm : mergeList base overlay = .ok r)
    (hget : dictGet? overlay k = some v) (hnd : v.isDict = false) :
    dictGet? r k = some v := by
  obtain ⟨pre, post, heq, hpre⟩ := dictGet?_split hget
  subst heq
  obtain ⟨r₁, h₁, h₂⟩ := mergeList_ok_of_append hm
  rw [mergeList_cons_nondict hnd] at h₂
  have hpost : hasKey post k = false := hasKey_post_of_nodup ho
  rw [mergeList_frame h₂ hpost, dictGet?_dictSet_same]

theorem mergeList_get_overlay_dict {base overlay r : Dict} {k : String} {o : Dict}
    (ho : dictNodup overlay = true) (hm : mergeList base overlay = .ok r)
    (hget : dictGet? overlay k = some (.vdict o)) :
    ∃ node m, dictGetD base k (.vdict []) = .vdict node ∧ mergeList node o = .ok m ∧
      dictGet? r k = some (.vdict m) := by
  obtain ⟨pre, post, heq, hpre⟩ := dictGet?_split hget
  subst heq
  obtain ⟨r₁, h₁, h₂⟩ := mergeList_ok_of_append hm
  have hr₁ : dictGet? r₁ k = dictGet? base k := mergeList_frame h₁ hpre
  have hpost : hasKey post k = false := hasKey_post_of_nodup ho
  cases hdg : dictGetD r₁ k (.vdict []) with
  | vdict node =>
    cases hin : mergeList node o with
    | error e => rw [mergeList_cons_dict_err hdg hin] at h₂; cases h₂
    | ok m =>
      refine ⟨node, m, ?_, hin, ?_⟩
      · rw [dictGetD, ← hr₁, ← dictGetD]
        exact hdg
      · rw [mergeList_cons_dict_ok hdg hin] at h₂
        rw [mergeList_frame h₂ hpost, dictGet?_dictSet_same]
  | prim n =>
    rw [mergeList_cons_dict_bad (by rw [hdg]; rfl)] at h₂
    cases h₂
  | tup h' nm kw =>
    rw [mergeList_cons_dict_bad (by rw [hdg]; rfl)] at h₂
    cases h₂

theorem mergeList_get_base_only {base overlay r : Dict} {k : String} {v : Val}
    (hm : mergeList base overlay = .ok r) (hget : dictGet? base k = some v)
    (hnk : hasKey overlay k = false) : dictGet? r k = some v := by
  rw [mergeList_frame hm hnk]
  exact hget

/-- Claim C3: for trees `base` and `overlay` (the overlay a genuine dict,
so its keys are unique) whose merge returns a result `r`: (a) a key at
which the overlay holds a non-dict value holds exactly that value in
`r`, overwriting the base; (b) a key at which the overlay holds a group
holds in `r` the recursive merge of the base's value at that key (an
absent base key being the empty group) with the overlay group; (c) a key
present in the base and absent from the overlay keeps the base's value
unchanged; (d) the key set of `r` is the union of the key sets of base
and overlay. -/
theorem C3_deep_merge_per_key (base overlay r : Dict)
    (ho : dictNodup overlay = true)
    (hm : deep_merge (.vdict base) (.vdict overlay) = .ok r) :
    (∀ k v, dictGet? overlay k = some v → v.isDict = false → dictGet? r k = some v) ∧
    (∀ k o, dictGet? overlay k = some (.vdict o) →
      ∃ m, deep_merge (dictGetD base k (.vdict [])) (.vdict o) = .ok m ∧
        dictGet? r k = some (.vdict m)) ∧
    (∀ k v, dictGet? base k = some v → hasKey overlay k = false → dictGet? r k = some v) ∧
    (∀ k, hasKey r k = (hasKey base k || hasKey overlay k)) := by
  simp only [deep_merge] at hm
  refine ⟨?_, ?_, ?_, ?_⟩
  · intro k v hget hnd
    exact mergeList_get_overlay_nondict ho hm hget hnd
  · intro k o hget
    obtain ⟨node, m, hdg, hin, hr⟩ := mergeList_get_overlay_dict ho hm hget
    refine ⟨m, ?_, hr⟩
    rw [hdg]
    simpa [deep_merge] using hin
  · intro k v hget hnk
    exact mergeList_get_base_only hm hget hnk
  · intro k
    exact hasKey_mergeList hm

/-- Witness for C3 at a concrete pair exercising all four conjuncts
(including the spec's literal example `base={"a":1}`, `overlay={"a":2}`
→ merged `{"a":2}`). -/
theorem C3_deep_merge_per_key_witness :
    dictNodup [("a", Val.prim 2), ("g", Val.vdict [("x", Val.prim 3)])] = true ∧
    deep_merge (.vdict [("a", Val.prim 1), ("keep", Val.prim 5)])
        (.vdict [("a", Val.prim 2), ("g", Val.vdict [("x", Val.prim 3)])])
      = .ok [("a", Val.prim 2), ("keep", Val.prim 5), ("g", Val.vdict [("x", Val.prim 3)])] ∧
    ((∀ k v, dictGet? [("a", Val.prim 2), ("g", Val.vdict [("x", Val.prim 3)])] k = some v →
        v.isDict = false →
        dictGet? [("a", Val.prim 2), ("keep", Val.prim 5),
          ("g", Val.vdict [("x", Val.prim 3)])] k = some v) ∧
      (∀ k o, dictGet? [("a", Val.prim 2), ("g", Val.vdict [("x", Val.prim 3)])] k
          = some (.vdict o) →
        ∃ m, deep_merge (dictGetD [("a", Val.prim 1), ("keep", Val.prim 5)] k (.vdict []))
            (.vdict o) = .ok m ∧
          dictGet? [("a", Val.prim 2), ("keep", Val.prim 5),
            ("g", Val.vdict [("x", Val.prim 3)])] k = some (.vdict m)) ∧
      (∀ k v, dictGet? [("a", Val.prim 1), ("keep", Val.prim 5)] k = some v →
        hasKey [("a", Val.prim 2), ("g", Val.vdict [("x", Val.prim 3)])] k = false →
        dictGet? [("a", Val.prim 2), ("keep", Val.prim 5),
          ("g", Val.vdict [("x", Val.prim 3)])] k = some v) ∧
      (∀ k, hasKey [("a", Val.prim 2), ("keep", Val.prim 5),
          ("g", Val.vdict [("x", Val.prim 3)])] k
        = (hasKey [("a", Val.prim 1), ("keep", Val.prim 5)] k ||
           hasKey [("a", Val.prim 2), ("g", Val.vdict [("x", Val.prim 3)])] k))) := by
  refine ⟨by simp [dictNodup, valNodup, hasKey], ?_, ?_⟩
  · simp [deep_merge, mergeList, dictGetD, dictGet?, dictSet]
  · exact C3_deep_merge_per_key _ _ _ (by simp [dictNodup, valNodup, hasKey])
      (by simp [deep_merge, mergeList, dictGetD, dictGet?, dictSet])

/-! ## Claim C6: merge of key-disjoint trees -/

theorem mem_allKeys_of_hasKey {d : Dict} {k : String} (h : hasKey d k = true) :
    k ∈ allKeys d := by
  induction d with
  | nil => simp [hasKey] at h
  | cons p rest ih =>
    obtain ⟨k', v⟩ := p
    simp only [hasKey, Bool.or_eq_true, decide_eq_true_eq] at h
    cases v with
    | vdict dd =>
      simp only [allKeys, List.cons_append, List.mem_cons, List.mem_append]
      rcases h with h | h
      · exact Or.inl h.symm
      · exact Or.inr (Or.inr (ih h))
    | prim n =>
      simp only [allKeys, List.mem_cons]
      rcases h with h | h
      · exact Or.inl h.symm
      · exact Or.inr (ih h)
    | tup h' nm kw =>
      simp only [allKeys, List.mem_cons]
      rcases h with h | h
      · exact Or.inl h.symm
      · exact Or.inr (ih h)

theorem disjointDeep_hasKey {b o : Dict} (hd : disjointDeep b o = true) {k : String} :
    hasKey b k = true → hasKey o k = false := by
  intro hb
  simp only [disjointDeep, List.all_eq_true, decide_eq_true_eq] at hd
  have := hd k (mem_allKeys_of_hasKey hb)
  cases ho : hasKey o k
  · rfl
  · exact absurd (mem_allKeys_of_hasKey ho) this

/-- Claim C6: for trees sharing no keys at any nesting level (each a
genuine dict, so keys unique at each level), `deep_merge` returns their
simple keyed union — the concatenation of their entries — in both
orders, and the merge is symmetric as a mapping: both orders agree on
every key lookup. -/
theorem C6_deep_merge_disjoint (base overlay : Dict)
    (hb : dictNodup base = true) (ho : dictNodup overlay = true)
    (hd : disjointDeep base overlay = true) :
    deep_merge (.vdict base) (.vdict overlay) = .ok (base ++ overlay) ∧
    deep_merge (.vdict overlay) (.vdict base) = .ok (overlay ++ base) ∧
    ∀ k, dictGet? (base ++ overlay) k = dictGet? (overlay ++ base) k := by
  have hfo : ∀ k, hasKey overlay k = true → hasKey base k = false := by
    intro k hk
    cases hbk : hasKey base k
    · rfl
    · rw [disjointDeep_hasKey hd hbk] at hk
      cases hk
  have hfb : ∀ k, hasKey base k = true → hasKey overlay k = false := by
    intro k hk
    exact disjointDeep_hasKey hd hk
  refine ⟨?_, ?_, ?_⟩
  · simpa [deep_merge] using mergeList_fresh ho hfo
  · simpa [deep_merge] using mergeList_fresh hb hfb
  · intro k
    rw [dictGet?_append, dictGet?_append]
    cases hbk : hasKey base k
    · cases hok : hasKey overlay k
      · simp [dictGet?_eq_none_iff.mpr hbk, dictGet?_eq_none_iff.mpr hok]
      · simp
    · rw [hfb k hbk]
      simp

/-- Witness for C6 at a concrete disjoint pair. -/
theorem C6_deep_merge_disjoint_witness :
    dictNodup [("a", Val.prim 1)] = true ∧
    dictNodup [("b", Val.vdict [("c", Val.prim 2)])] = true ∧
    disjointDeep [("a", Val.prim 1)] [("b", Val.vdict [("c", Val.prim 2)])] = true ∧
    (deep_merge (.vdict [("a", Val.prim 1)]) (.vdict [("b", Val.vdict [("c", Val.prim 2)])])
        = .ok ([("a", Val.prim 1)] ++ [("b", Val.vdict [("c", Val.prim 2)])]) ∧
      deep_merge (.vdict [("b", Val.vdict [("c", Val.prim 2)])]) (.vdict [("a", Val.prim 1)])
        = .ok ([("b", Val.vdict [("c", Val.prim 2)])] ++ [("a", Val.prim 1)]) ∧
      ∀ k, dictGet? ([("a", Val.prim 1)] ++ [("b", Val.vdict [("c", Val.prim 2)])]) k
        = dictGet? ([("b", Val.vdict [("c", Val.prim 2)])] ++ [("a", Val.prim 1)]) k) := by
  refine ⟨by simp [dictNodup, valNodup, hasKey], by simp [dictNodup, valNodup, hasKey],
    by simp [disjointDeep, allKeys], ?_⟩
  exact C6_deep_merge_disjoint _ _ (by simp [dictNodup, valNodup, hasKey])
    (by simp [dictNodup, valNodup, hasKey]) (by simp [disjointDeep, allKeys])

/-! ## Claim C1: the two classifications reconstruct the schema -/

theorem dictGet?_of_hasKey {d : Dict} {k : String} (h : hasKey d k = true) :
    ∃ v, dictGet? d k = some v := by
  cases hg : dictGet? d k
  · rw [dictGet?_eq_none_iff] at hg
    rw [hg] at h
    cases h
  · exact ⟨_, rfl⟩

theorem isSchemaNode_of_get : ∀ {S : Dict} {k : String} {v : Val},
    isSchemaDict S = true → dictGet? S k = some v → isSchemaNode v = true := by
  intro S
  induction S with
  | nil => intro k v _ h; simp [dictGet?] at h
  | cons p rest ih =>
    intro k v hS h
    obtain ⟨k', v'⟩ := p
    simp only [isSchemaDict, Bool.and_eq_true] at hS
    by_cases hk : k' = k
    · subst hk
      simp [dictGet?] at h
      subst h
      exact hS.1
    · simp only [dictGet?, if_neg hk] at h
      exact ih hS.2 h

theorem leavesClassifiedNode_of_get : ∀ {S : Dict} {k : String} {v : Val},
    leavesClassifiedDict S = true → dictGet? S k = some v →
    leavesClassifiedNode v = true := by
  intro S
  induction S with
  | nil => intro k v _ h; simp [dictGet?] at h
  | cons p rest ih =>
    intro k v hS h
    obtain ⟨k', v'⟩ := p
    simp only [leavesClassifiedDict, Bool.and_eq_true] at hS
    by_cases hk : k' = k
    · subst hk
      simp [dictGet?] at h
      subst h
      exact hS.1
    · simp only [dictGet?, if_neg hk] at h
      exact ih hS.2 h

theorem valNodup_of_get : ∀ {S : Dict} {k : String} {v : Val},
    dictNodup S = true → dictGet? S k = some v → valNodup v = true := by
  intro S
  induction S with
  | nil => intro k v _ h; simp [dictGet?] at h
  | cons p rest ih =>
    intro k v hS h
    obtain ⟨k', v'⟩ := p
    simp only [dictNodup, Bool.and_eq_true] at hS
    by_cases hk : k' = k
    · subst hk
      simp [dictGet?] at h
      subst h
      exact hS.1.2
    · simp only [dictGet?, if_neg hk] at h
      exact ih hS.2 h

theorem nodupTop_of_dictNodup : ∀ {d : Dict}, dictNodup d = true → nodupTop d = true := by
  intro d
  induction d with
  | nil => intro; rfl
  | cons p rest ih =>
    intro h
    obtain ⟨k, v⟩ := p
    simp only [dictNodup, Bool.and_eq_true] at h
    simp only [nodupTop, Bool.and_eq_true]
    exact ⟨h.1.1, ih h.2⟩

theorem nodupTop_dictSet {k : String} {v : Val} : ∀ {d : Dict},
    nodupTop d = true → nodupTop (dictSet d k v) = true := by
  intro d
  induction d with
  | nil => intro; simp [dictSet, nodupTop, hasKey]
  | cons p rest ih =>
    intro h
    obtain ⟨k', v'⟩ := p
    simp only [nodupTop, Bool.and_eq_true, Bool.not_eq_true'] at h
    by_cases hk : k' = k
    · subst hk
      simp only [dictSet, if_pos rfl, nodupTop, Bool.and_eq_true, Bool.not_eq_true']
      exact h
    · simp only [dictSet, if_neg hk, nodupTop, Bool.and_eq_true, Bool.not_eq_true']
      refine ⟨?_, ih h.2⟩
      rw [hasKey_dictSet, h.1]
      simp only [Bool.false_or, decide_eq_false_iff_not]
      exact fun he => hk he.symm

theorem nodupTop_mergeList : ∀ {items r r' : Dict},
    nodupTop r = true → mergeList r items = .ok r' → nodupTop r' = true := by
  intro items
  induction items with
  | nil =>
    intro r r' hr hm
    rw [mergeList_nil] at hm
    cases hm
    exact hr
  | cons p rest ih =>
    intro r r' hr hm
    obtain ⟨key, value⟩ := p
    cases value with
    | prim n =>
      rw [mergeList_cons_nondict (show (Val.prim n).isDict = false from rfl)] at hm
      exact ih (nodupTop_dictSet hr) hm
    | tup h nm kw =>
      rw [mergeList_cons_nondict (show (Val.tup h nm kw).isDict = false from rfl)] at hm
      exact ih (nodupTop_dictSet hr) hm
    | vdict v2 =>
      cases hd : dictGetD r key (.vdict []) with
      | vdict node =>
        cases hmm : mergeList node v2 with
        | error e => rw [mergeList_cons_dict_err hd hmm] at hm; cases hm
        | ok merged =>
          rw [mergeList_cons_dict_ok hd hmm] at hm
          exact ih (nodupTop_dictSet hr) hm
      | prim n => rw [mergeList_cons_dict_bad (by rw [hd]; rfl)] at hm; cases hm
      | tup h nm kw => rw [mergeList_cons_dict_bad (by rw [hd]; rfl)] at hm; cases hm

theorem dictNodup_of_per_key : ∀ {d : Dict}, nodupTop d = true →
    (∀ k v, dictGet? d k = some v → valNodup v = true) → dictNodup d = true := by
  intro d
  induction d with
  | nil => intro _ _; rfl
  | cons p rest ih =>
    intro h1 h2
    obtain ⟨k, v⟩ := p
    simp only [nodupTop, Bool.and_eq_true, Bool.not_eq_true'] at h1
    simp only [dictNodup, Bool.and_eq_true, Bool.not_eq_true']
    refine ⟨⟨h1.1, h2 k v (by simp [dictGet?])⟩, ?_⟩
    apply ih h1.2
    intro k' v' hget
    apply h2 k' v'
    have hkk : ¬ k = k' := by
      intro he
      subst he
      rw [dictGet?_eq_none_iff.mpr h1.1] at hget
      cases hget
    simp only [dictGet?, if_neg hkk]
    exact hget

theorem mergeList_isOk_of_groups : ∀ {items result : Dict}, nodupTop items = true →
    (∀ k o, dictGet? items k = some (.vdict o) →
      ∃ b, dictGetD result k (.vdict []) = .vdict b ∧ ∃ m, mergeList b o = .ok m) →
    ∃ r, mergeList result items = .ok r := by
  intro items
  induction items with
  | nil => intro result _ _; exact ⟨result, mergeList_nil result⟩
  | cons p rest ih =>
    intro result hn hg
    obtain ⟨key, value⟩ := p
    simp only [nodupTop, Bool.and_eq_true, Bool.not_eq_true'] at hn
    have hrest : ∀ res : Dict, (∀ k o, dictGet? rest k = some (.vdict o) →
        ∃ b, dictGetD res k (.vdict []) = .vdict b ∧ ∃ m, mergeList b o = .ok m) →
        ∃ r, mergeList res rest = .ok r := fun res hres => ih hn.2 hres
    have hkeyfree : ∀ k o, dictGet? rest k = some (.vdict o) → ¬ key = k := by
      intro k o hget he
      subst he
      rw [dictGet?_eq_none_iff.mpr hn.1] at hget
      cases hget
    cases value with
    | prim n =>
      rw [mergeList_cons_nondict (show (Val.prim n).isDict = false from rfl)]
      apply hrest
      intro k o hget
      rw [dictGetD, dictGet?_dictSet_other (hkeyfree k o hget), ← dictGetD]
      exact hg k o (by simp only [dictGet?, if_neg (hkeyfree k o hget)]; exact hget)
    | tup h nm kw =>
      rw [mergeList_cons_nondict (show (Val.tup h nm kw).isDict = false from rfl)]
      apply hrest
      intro k o hget
      rw [dictGetD, dictGet?_dictSet_other (hkeyfree k o hget), ← dictGetD]
      exact hg k o (by simp only [dictGet?, if_neg (hkeyfree k o hget)]; exact hget)
    | vdict o =>
      obtain ⟨b, hb, m, hmo⟩ := hg key o (by simp [dictGet?])
      rw [mergeList_cons_dict_ok hb hmo]
      apply hrest
      intro k o' hget
      rw [dictGetD, dictGet?_dictSet_other (hkeyfree k o' hget), ← dictGetD]
      exact hg k o' (by simp only [dictGet?, if_neg (hkeyfree k o' hget)]; exact hget)

/-- The heart of claim C1: merging the eager extraction of a schema into
the lazy extraction reconstructs the schema — same keys at every level,
identical leaves, no key dropped, duplicated, or invented. -/
theorem extract_merge_reconstructs (S : Dict) (hS : isSchemaDict S = true)
    (hc : leavesClassifiedDict S = true) (hn : dictNodup S = true) :
    ∃ M, mergeList (extract_schema S EAGER_TYPES) (extract_schema S LAZY_TYPES) = .ok M ∧
      dictNodup M = true ∧ ValEquiv (.vdict M) (.vdict S) := by
  have hnE : dictNodup (extract_schema S EAGER_TYPES) = true := dictNodup_extract hn
  have hnL : dictNodup (extract_schema S LAZY_TYPES) = true := dictNodup_extract hn
  have hrec : ∀ k g, dictGet? S k = some (.vdict g) →
      ∃ Mg, mergeList (extract_schema g EAGER_TYPES) (extract_schema g LAZY_TYPES) = .ok Mg ∧
        dictNodup Mg = true ∧ ValEquiv (.vdict Mg) (.vdict g) := by
    intro k g hget
    have h1 : isSchemaNode (.vdict g) = true := isSchemaNode_of_get hS hget
    have h2 : leavesClassifiedNode (.vdict g) = true := leavesClassifiedNode_of_get hc hget
    have h3 : valNodup (.vdict g) = true := valNodup_of_get hn hget
    simp only [isSchemaNode] at h1
    simp only [leavesClassifiedNode] at h2
    simp only [valNodup] at h3
    exact extract_merge_reconstructs g h1 h2 h3
  obtain ⟨M, hm⟩ : ∃ M,
      mergeList (extract_schema S EAGER_TYPES) (extract_schema S LAZY_TYPES) = .ok M := by
    apply mergeList_isOk_of_groups (nodupTop_of_dictNodup hnL)
    intro k o hko
    have hkS : hasKey S k = true :=
      hasKey_extract_imp (by rw [← dictGet?_isSome_iff, hko]; rfl)
    obtain ⟨w, hw⟩ := dictGet?_of_hasKey hkS
    cases w with
    | prim n => exact absurd (isSchemaNode_of_get hS hw) (by simp [isSchemaNode])
    | tup h nm kw =>
      have hL : dictGet? (extract_schema S LAZY_TYPES) k
          = if LAZY_TYPES h then some (.tup h nm kw) else none := extract_leaf_key hn hw
      rw [hL] at hko
      by_cases hlh : LAZY_TYPES h = true <;> simp [hlh] at hko
    | vdict g =>
      have hE : dictGet? (extract_schema S EAGER_TYPES) k
          = some (.vdict (extract_schema g EAGER_TYPES)) := extract_group_key hw
      have hL : dictGet? (extract_schema S LAZY_TYPES) k
          = some (.vdict (extract_schema g LAZY_TYPES)) := extract_group_key hw
      rw [hL] at hko
      simp only [Option.some.injEq, Val.vdict.injEq] at hko
      obtain ⟨Mg, hMg, _, _⟩ := hrec k g hw
      refine ⟨extract_schema g EAGER_TYPES, by rw [dictGetD, hE]; rfl, Mg, ?_⟩
      rw [← hko]
      exact hMg
  have key_char : ∀ k (v : Val), dictGet? S k = some v →
      ∃ mv, dictGet? M k = some mv ∧ valNodup mv = true ∧ ValEquiv mv v := by
    intro k v hw
    cases v with
    | prim n => exact absurd (isSchemaNode_of_get hS hw) (by simp [isSchemaNode])
    | tup h nm kw =>
      have hcl := leavesClassifiedNode_of_get hc hw
      simp only [leavesClassifiedNode] at hcl
      have hE : dictGet? (extract_schema S EAGER_TYPES) k
          = if EAGER_TYPES h then some (.tup h nm kw) else none := extract_leaf_key hn hw
      have hL : dictGet? (extract_schema S LAZY_TYPES) k
          = if LAZY_TYPES h then some (.tup h nm kw) else none := extract_leaf_key hn hw
      cases heh : EAGER_TYPES h with
      | true =>
        have hlh : LAZY_TYPES h = false := by
          rw [heh] at hcl
          cases hlh' : LAZY_TYPES h
          · rfl
          · rw [hlh'] at hcl; simp [Bool.xor] at hcl
        refine ⟨.tup h nm kw, ?_, rfl, ValEquiv.tup h nm kw⟩
        apply mergeList_get_base_only hm (by rw [hE, heh]; rfl)
        rw [← dictGet?_eq_none_iff, hL, hlh]
        rfl
      | false =>
        have hlh : LAZY_TYPES h = true := by
          rw [heh] at hcl
          cases hlh' : LAZY_TYPES h
          · rw [hlh'] at hcl; simp [Bool.xor] at hcl
          · rfl
        refine ⟨.tup h nm kw, ?_, rfl, ValEquiv.tup h nm kw⟩
        exact mergeList_get_overlay_nondict hnL hm (by rw [hL, hlh]; rfl) rfl
    | vdict g =>
      have hE : dictGet? (extract_schema S EAGER_TYPES) k
          = some (.vdict (extract_schema g EAGER_TYPES)) := extract_group_key hw
      have hL : dictGet? (extract_schema S LAZY_TYPES) k
          = some (.vdict (extract_schema g LAZY_TYPES)) := extract_group_key hw
      obtain ⟨node, m', hnode, hin, hMk⟩ := mergeList_get_overlay_dict hnL hm hL
      rw [dictGetD, hE] at hnode
      simp only [Option.getD_some, Val.vdict.injEq] at hnode
      obtain ⟨Mg, hMg, hMgnd, hMgeq⟩ := hrec k g hw
      rw [hnode] at hMg
      rw [hMg] at hin
      cases hin
      exact ⟨.vdict m', hMk, by simpa [valNodup] using hMgnd, hMgeq⟩
  refine ⟨M, hm, ?_, ?_⟩
  · apply dictNodup_of_per_key (nodupTop_mergeList (nodupTop_of_dictNodup hnE) hm)
    intro k v hMk
    have hkM : hasKey M k = true := by rw [← dictGet?_isSome_iff, hMk]; rfl
    rw [hasKey_mergeList hm, Bool.or_eq_true] at hkM
    have hkS : hasKey S k = true := by
      rcases hkM with h | h
      · exact hasKey_extract_imp h
      · exact hasKey_extract_imp h
    obtain ⟨w, hw⟩ := dictGet?_of_hasKey hkS
    obtain ⟨mv, hmv, hmnd, _⟩ := key_char k w hw
    rw [hmv] at hMk
    cases hMk
    exact hmnd
  · refine ValEquiv.vdict M S ?_ ?_
    · intro k
      cases hkS : hasKey S k with
      | false =>
        rw [hasKey_mergeList hm, hasKey_extract_false hkS, hasKey_extract_false hkS]
        rfl
      | true =>
        obtain ⟨w, hw⟩ := dictGet?_of_hasKey hkS
        obtain ⟨mv, hmv, _, _⟩ := key_char k w hw
        rw [← dictGet?_isSome_iff, hmv]
        rfl
    · intro k vm vs hvm hvs
      obtain ⟨mv, hmv, _, hequiv⟩ := key_char k vs hvs
      rw [hmv] at hvm
      cases hvm
      exact hequiv
termination_by sizeOf S
decreasing_by
  have := sizeOf_dictGet? hget
  simp only [Val.vdict.sizeOf_spec] at this
  omega

/-- Claim C1: for every schema tree in which every leaf's holder is
classified as exactly one of EAGER (`Field`/`Fieldset`) or LAZY
(`LazyField`), deep-merging the EAGER extraction into the LAZY
extraction succeeds and reproduces exactly the key structure of the
schema at every nesting level: same key set level by level, every leaf
present with its identical tuple, no key duplicated (the result is a
genuine dict at every level), none dropped, none invented. -/
theorem C1_classification_completeness (S : Dict) (hS : isSchemaDict S = true)
    (hc : leavesClassifiedDict S = true) (hn : dictNodup S = true) :
    ∃ M, deep_merge (.vdict (extract_schema S EAGER_TYPES))
        (.vdict (extract_schema S LAZY_TYPES)) = .ok M ∧
      dictNodup M = true ∧ ValEquiv (.vdict M) (.vdict S) := by
  simpa [deep_merge] using extract_merge_reconstructs S hS hc hn

/-- Witness for C1 on a miniature of the demo schema (eager root leaves,
a group mixing one lazy and one eager leaf, an eager fieldset leaf). -/
theorem C1_classification_completeness_witness :
    isSchemaDict [("pk", Val.tup .field "increment" []),
      ("owner", Val.vdict [("email", Val.tup .lazyField "custom_email" [("domains", Val.prim 0)]),
        ("creator", Val.tup .field "full_name" [("gender", Val.prim 1)])]),
      ("apiKeys", Val.tup .fieldset "token_hex" [("i", Val.prim 3)])] = true ∧
    leavesClassifiedDict [("pk", Val.tup .field "increment" []),
      ("owner", Val.vdict [("email", Val.tup .lazyField "custom_email" [("domains", Val.prim 0)]),
        ("creator", Val.tup .field "full_name" [("gender", Val.prim 1)])]),
      ("apiKeys", Val.tup .fieldset "token_hex" [("i", Val.prim 3)])] = true ∧
    dictNodup [("pk", Val.tup .field "increment" []),
      ("owner", Val.vdict [("email", Val.tup .lazyField "custom_email" [("domains", Val.prim 0)]),
        ("creator", Val.tup .field "full_name" [("gender", Val.prim 1)])]),
      ("apiKeys", Val.tup .fieldset "token_hex" [("i", Val.prim 3)])] = true ∧
    ∃ M, deep_merge
        (.vdict (extract_schema [("pk", Val.tup .field "increment" []),
          ("owner", Val.vdict [("email", Val.tup .lazyField "custom_email"
            [("domains", Val.prim 0)]),
            ("creator", Val.tup .field "full_name" [("gender", Val.prim 1)])]),
          ("apiKeys", Val.tup .fieldset "token_hex" [("i", Val.prim 3)])] EAGER_TYPES))
        (.vdict (extract_schema [("pk", Val.tup .field "increment" []),
          ("owner", Val.vdict [("email", Val.tup .lazyField "custom_email"
            [("domains", Val.prim 0)]),
            ("creator", Val.tup .field "full_name" [("gender", Val.prim 1)])]),
          ("apiKeys", Val.tup .fieldset "token_hex" [("i", Val.prim 3)])] LAZY_TYPES))
      = .ok M ∧
      dictNodup M = true ∧
      ValEquiv (.vdict M) (.vdict [("pk", Val.tup .field "increment" []),
        ("owner", Val.vdict [("email", Val.tup .lazyField "custom_email"
          [("domains", Val.prim 0)]),
          ("creator", Val.tup .field "full_name" [("gender", Val.prim 1)])]),
        ("apiKeys", Val.tup .fieldset "token_hex" [("i", Val.prim 3)])]) := by
  refine ⟨by simp [isSchemaDict, isSchemaNode], ?_, ?_, ?_⟩
  · simp [leavesClassifiedDict, leavesClassifiedNode, EAGER_TYPES, LAZY_TYPES]
  · simp [dictNodup, valNodup, hasKey]
  · exact C1_classification_completeness _ (by simp [isSchemaDict, isSchemaNode])
      (by simp [leavesClassifiedDict, leavesClassifiedNode, EAGER_TYPES, LAZY_TYPES])
      (by simp [dictNodup, valNodup, hasKey])

/-! ## Claim C10 -/

/-- Claim C10: `deep_merge` is not total.  When the overlay holds a
group at a key where the base holds a present non-dict value, the call
raises a `TypeError` (from `dict(d1)` on the non-dict) instead of
returning a tree; by contrast, when the key is absent from the base the
same overlay merges fine, the missing key being treated as an empty
group. -/
theorem C10_deep_merge_not_total :
    deep_merge (.vdict [("a", .prim 1)]) (.vdict [("a", .vdict [("b", .prim 2)])])
      = .error .typeError ∧
    deep_merge (.vdict []) (.vdict [("a", .vdict [("b", .prim 2)])])
      = .ok [("a", .vdict [("b", .prim 2)])] := by
  constructor
  · simp [deep_merge, mergeList, dictGetD, dictGet?]
  · simp [deep_merge, mergeList, dictGetD, dictGet?, dictSet]

/-! ## Claim C7: classification happens at construction -/

/-- Claim C7: the constructor stores exactly the two classifications of
the schema (computed at construction), and `create` is fully determined
by those stored trees — running it on the stored evaluator is the same
as running it on an evaluator holding the two extractions literally, so
`create` never re-classifies the original schema. -/
theorem C7_construction_contract (S : Dict) (gen : Gen) :
    (EvaluatedSchema.init S).eager_schema = extract_schema S EAGER_TYPES ∧
    (EvaluatedSchema.init S).lazy_schema = extract_schema S LAZY_TYPES ∧
    create (EvaluatedSchema.init S) gen =
      create { eager_schema := extract_schema S EAGER_TYPES,
               lazy_schema := extract_schema S LAZY_TYPES } gen :=
  ⟨rfl, rfl, rfl⟩

/-! ## Claim C2: what each pass hands its generators -/

theorem eager_not_lazy {h : Holder} (he : EAGER_TYPES h = true) : LAZY_TYPES h = false := by
  cases h <;> simp_all [EAGER_TYPES, LAZY_TYPES]

theorem lazy_not_eager {h : Holder} (hl : LAZY_TYPES h = true) : EAGER_TYPES h = false := by
  cases h <;> simp_all [EAGER_TYPES, LAZY_TYPES]

theorem evaluate_eager_call_holders (gen : Gen) (t : Holder → Bool) (s : Dict) :
    allLeavesHolderDict s t = true →
    ∀ c ∈ (evaluate_eager gen s).2, t c.holder = true := by
  induction s using evaluate_eager.induct gen with
  | case1 => intro _ c hc; simp [evaluate_eager] at hc
  | case2 k' rest d e tr heq ih =>
    intro hall c hc
    simp only [allLeavesHolderDict, allLeavesHolderNode, Bool.and_eq_true] at hall
    simp only [evaluate_eager, heq] at hc
    exact ih hall.1 c (by simp [heq, hc])
  | case3 k' rest d rs tr heq1 e tr2 heq2 ih1 ih2 =>
    intro hall c hc
    simp only [allLeavesHolderDict, allLeavesHolderNode, Bool.and_eq_true] at hall
    simp only [evaluate_eager, heq1, heq2, List.mem_append] at hc
    rcases hc with hc | hc
    · exact ih1 hall.1 c (by simp [heq1, hc])
    · exact ih2 hall.2 c (by simp [heq2, hc])
  | case4 k' rest d rs tr heq1 rs2 tr2 heq2 ih1 ih2 =>
    intro hall c hc
    simp only [allLeavesHolderDict, allLeavesHolderNode, Bool.and_eq_true] at hall
    simp only [evaluate_eager, heq1, heq2, List.mem_append] at hc
    rcases hc with hc | hc
    · exact ih1 hall.1 c (by simp [heq1, hc])
    · exact ih2 hall.2 c (by simp [heq2, hc])
  | case5 k' rest h handler kwargs e heq =>
    intro hall c hc
    simp only [allLeavesHolderDict, allLeavesHolderNode, Bool.and_eq_true] at hall
    simp only [evaluate_eager, heq, List.mem_singleton] at hc
    subst hc
    exact hall.1
  | case6 k' rest h handler kwargs v heq e tr heq2 ih =>
    intro hall c hc
    simp only [allLeavesHolderDict, allLeavesHolderNode, Bool.and_eq_true] at hall
    simp only [evaluate_eager, heq, heq2, List.mem_cons] at hc
    rcases hc with hc | hc
    · subst hc; exact hall.1
    · exact ih hall.2 c (by simp [heq2, hc])
  | case7 k' rest h handler kwargs v heq rs tr heq2 ih =>
    intro hall c hc
    simp only [allLeavesHolderDict, allLeavesHolderNode, Bool.and_eq_true] at hall
    simp only [evaluate_eager, heq, heq2, List.mem_cons] at hc
    rcases hc with hc | hc
    · subst hc; exact hall.1
    · exact ih hall.2 c (by simp [heq2, hc])
  | case8 k' rest n =>
    intro _ c hc
    simp [evaluate_eager] at hc

theorem evaluate_eager_call_kwargs (gen : Gen) (s : Dict) :
    reservedFreeDict s = true →
    ∀ c ∈ (evaluate_eager gen s).2, hasKey c.kwargs reservedKey = false := by
  induction s using evaluate_eager.induct gen with
  | case1 => intro _ c hc; simp [evaluate_eager] at hc
  | case2 k' rest d e tr heq ih =>
    intro hall c hc
    simp only [reservedFreeDict, reservedFreeNode, Bool.and_eq_true] at hall
    simp only [evaluate_eager, heq] at hc
    exact ih hall.1 c (by simp [heq, hc])
  | case3 k' rest d rs tr heq1 e tr2 heq2 ih1 ih2 =>
    intro hall c hc
    simp only [reservedFreeDict, reservedFreeNode, Bool.and_eq_true] at hall
    simp only [evaluate_eager, heq1, heq2, List.mem_append] at hc
    rcases hc with hc | hc
    · exact ih1 hall.1 c (by simp [heq1, hc])
    · exact ih2 hall.2 c (by simp [heq2, hc])
  | case4 k' rest d rs tr heq1 rs2 tr2 heq2 ih1 ih2 =>
    intro hall c hc
    simp only [reservedFreeDict, reservedFreeNode, Bool.and_eq_true] at hall
    simp only [evaluate_eager, heq1, heq2, List.mem_append] at hc
    rcases hc with hc | hc
    · exact ih1 hall.1 c (by simp [heq1, hc])
    · exact ih2 hall.2 c (by simp [heq2, hc])
  | case5 k' rest h handler kwargs e heq =>
    intro hall c hc
    simp only [reservedFreeDict, reservedFreeNode, Bool.and_eq_true,
      Bool.not_eq_true'] at hall
    simp only [evaluate_eager, heq, List.mem_singleton] at hc
    subst hc
    exact hall.1
  | case6 k' rest h handler kwargs v heq e tr heq2 ih =>
    intro hall c hc
    simp only [reservedFreeDict, reservedFreeNode, Bool.and_eq_true,
      Bool.not_eq_true'] at hall
    simp only [evaluate_eager, heq, heq2, List.mem_cons] at hc
    rcases hc with hc | hc
    · subst hc; exact hall.1
    · exact ih hall.2 c (by simp [heq2, hc])
  | case7 k' rest h handler kwargs v heq rs tr heq2 ih =>
    intro hall c hc
    simp only [reservedFreeDict, reservedFreeNode, Bool.and_eq_true,
      Bool.not_eq_true'] at hall
    simp only [evaluate_eager, heq, heq2, List.mem_cons] at hc
    rcases hc with hc | hc
    · subst hc; exact hall.1
    · exact ih hall.2 c (by simp [heq2, hc])
  | case8 k' rest n =>
    intro _ c hc
    simp [evaluate_eager] at hc

theorem evaluate_lazy_call_kwargs (gen : Gen) (s er : Dict) :
    ∀ c ∈ (evaluate_lazy gen s er).2,
      ∃ static, c.kwargs = (reservedKey, .vdict er) :: static ∧
        hasKey static reservedKey = false := by
  induction s, er using evaluate_lazy.induct gen with
  | case1 er => intro c hc; simp [evaluate_lazy] at hc
  | case2 er k' rest d e tr heq ih =>
    intro c hc
    simp only [evaluate_lazy, heq] at hc
    exact ih c (by simp [heq, hc])
  | case3 er k' rest d rs tr heq1 e tr2 heq2 ih1 ih2 =>
    intro c hc
    simp only [evaluate_lazy, heq1, heq2, List.mem_append] at hc
    rcases hc with hc | hc
    · exact ih1 c (by simp [heq1, hc])
    · exact ih2 c (by simp [heq2, hc])
  | case4 er k' rest d rs tr heq1 rs2 tr2 heq2 ih1 ih2 =>
    intro c hc
    simp only [evaluate_lazy, heq1, heq2, List.mem_append] at hc
    rcases hc with hc | hc
    · exact ih1 c (by simp [heq1, hc])
    · exact ih2 c (by simp [heq2, hc])
  | case5 er k' rest h handler kwargs hdup =>
    intro c hc
    simp only [evaluate_lazy, if_pos hdup] at hc
    simp at hc
  | case6 er k' rest h handler kwargs hdup callKwargs e heq =>
    intro c hc
    simp only [evaluate_lazy, if_neg hdup, heq, List.mem_singleton] at hc
    subst hc
    exact ⟨kwargs, rfl, by simpa using hdup⟩
  | case7 er k' rest h handler kwargs hdup callKwargs v heq e tr heq2 ih =>
    intro c hc
    simp only [evaluate_lazy, if_neg hdup, heq, heq2, List.mem_cons] at hc
    rcases hc with hc | hc
    · subst hc; exact ⟨kwargs, rfl, by simpa using hdup⟩
    · exact ih c (by simp [heq2, hc])
  | case8 er k' rest h handler kwargs hdup callKwargs v heq rs tr heq2 ih =>
    intro c hc
    simp only [evaluate_lazy, if_neg hdup, heq, heq2, List.mem_cons] at hc
    rcases hc with hc | hc
    · subst hc; exact ⟨kwargs, rfl, by simpa using hdup⟩
    · exact ih c (by simp [heq2, hc])
  | case9 er k' rest n =>
    intro c hc
    simp [evaluate_lazy] at hc

theorem evaluate_lazy_call_holders (gen : Gen) (t : Holder → Bool) (s er : Dict) :
    allLeavesHolderDict s t = true →
    ∀ c ∈ (evaluate_lazy gen s er).2, t c.holder = true := by
  induction s, er using evaluate_lazy.induct gen with
  | case1 er => intro _ c hc; simp [evaluate_lazy] at hc
  | case2 er k' rest d e tr heq ih =>
    intro hall c hc
    simp only [allLeavesHolderDict, allLeavesHolderNode, Bool.and_eq_true] at hall
    simp only [evaluate_lazy, heq] at hc
    exact ih hall.1 c (by simp [heq, hc])
  | case3 er k' rest d rs tr heq1 e tr2 heq2 ih1 ih2 =>
    intro hall c hc
    simp only [allLeavesHolderDict, allLeavesHolderNode, Bool.and_eq_true] at hall
    simp only [evaluate_lazy, heq1, heq2, List.mem_append] at hc
    rcases hc with hc | hc
    · exact ih1 hall.1 c (by simp [heq1, hc])
    · exact ih2 hall.2 c (by simp [heq2, hc])
  | case4 er k' rest d rs tr heq1 rs2 tr2 heq2 ih1 ih2 =>
    intro hall c hc
    simp only [allLeavesHolderDict, allLeavesHolderNode, Bool.and_eq_true] at hall
    simp only [evaluate_lazy, heq1, heq2, List.mem_append] at hc
    rcases hc with hc | hc
    · exact ih1 hall.1 c (by simp [heq1, hc])
    · exact ih2 hall.2 c (by simp [heq2, hc])
  | case5 er k' rest h handler kwargs hdup =>
    intro _ c hc
    simp only [evaluate_lazy, if_pos hdup] at hc
    simp at hc
  | case6 er k' rest h handler kwargs hdup callKwargs e heq =>
    intro hall c hc
    simp only [allLeavesHolderDict, allLeavesHolderNode, Bool.and_eq_true] at hall
    simp only [evaluate_lazy, if_neg hdup, heq, List.mem_singleton] at hc
    subst hc
    exact hall.1
  | case7 er k' rest h handler kwargs hdup callKwargs v heq e tr heq2 ih =>
    intro hall c hc
    simp only [allLeavesHolderDict, allLeavesHolderNode, Bool.and_eq_true] at hall
    simp only [evaluate_lazy, if_neg hdup, heq, heq2, List.mem_cons] at hc
    rcases hc with hc | hc
    · subst hc; exact hall.1
    · exact ih hall.2 c (by simp [heq2, hc])
  | case8 er k' rest h handler kwargs hdup callKwargs v heq rs tr heq2 ih =>
    intro hall c hc
    simp only [allLeavesHolderDict, allLeavesHolderNode, Bool.and_eq_true] at hall
    simp only [evaluate_lazy, if_neg hdup, heq, heq2, List.mem_cons] at hc
    rcases hc with hc | hc
    · subst hc; exact hall.1
    · exact ih hall.2 c (by simp [heq2, hc])
  | case9 er k' rest n =>
    intro _ c hc
    simp [evaluate_lazy] at hc

/-- Claim C2: during `create()` on a schema whose static argument
mappings stay clear of the reserved keyword (which the design reserves
for the evaluator), no eager-leaf invocation receives the reserved
eager-context keyword at all, and every lazy-leaf invocation — at every
nesting depth — receives, ahead of its static argument mapping, the
complete top-level eager-results tree: exactly the tree produced by
evaluating the eager schema alone, never a subtree scoped to the leaf's
position. -/
theorem C2_two_pass_independence (S : Dict) (gen : Gen)
    (hres : reservedFreeDict S = true) :
    ∀ c ∈ (create (EvaluatedSchema.init S) gen).2.1,
      (EAGER_TYPES c.holder = true → hasKey c.kwargs reservedKey = false) ∧
      (LAZY_TYPES c.holder = true →
        ∃ ER trE static,
          evaluate_eager gen (extract_schema S EAGER_TYPES) = (.ok ER, trE) ∧
          c.kwargs = (reservedKey, .vdict ER) :: static ∧
          hasKey static reservedKey = false) := by
  intro c hc
  have hresE : reservedFreeDict (extract_schema S EAGER_TYPES) = true :=
    reservedFree_extract hres
  have hallE := allLeavesHolder_extract S EAGER_TYPES
  have hallL := allLeavesHolder_extract S LAZY_TYPES
  simp only [create, EvaluatedSchema.init] at hc
  cases hEe : evaluate_eager gen (extract_schema S EAGER_TYPES) with
  | mk resE trE =>
    rw [hEe] at hc
    cases resE with
    | error e =>
      simp only at hc
      refine ⟨fun _ => evaluate_eager_call_kwargs gen _ hresE c (by rw [hEe]; exact hc), ?_⟩
      intro hl
      have hh := evaluate_eager_call_holders gen EAGER_TYPES _ hallE c (by rw [hEe]; exact hc)
      rw [lazy_not_eager hl] at hh
      cases hh
    | ok ER =>
      dsimp only at hc
      cases hLe : evaluate_lazy gen (extract_schema S LAZY_TYPES) ER with
      | mk resL trL =>
        rw [hLe] at hc
        have hc2 : c ∈ trE ++ trL := by
          cases resL <;> simpa using hc
        rcases List.mem_append.mp hc2 with hcE | hcL
        · refine ⟨fun _ => evaluate_eager_call_kwargs gen _ hresE c (by rw [hEe]; exact hcE), ?_⟩
          intro hl
          have hh := evaluate_eager_call_holders gen EAGER_TYPES _ hallE c
            (by rw [hEe]; exact hcE)
          rw [lazy_not_eager hl] at hh
          cases hh
        · constructor
          · intro he
            have hh := evaluate_lazy_call_holders gen LAZY_TYPES _ ER hallL c
              (by rw [hLe]; exact hcL)
            rw [eager_not_lazy he] at hh
            cases hh
          · intro _
            obtain ⟨static, hst, hstf⟩ := evaluate_lazy_call_kwargs gen _ ER c
              (by rw [hLe]; exact hcL)
            exact ⟨ER, trE, static, rfl, hst, hstf⟩

/-- Witness for C2 on a schema with a top-level eager leaf and a nested
lazy leaf, under an always-succeeding generator. -/
theorem C2_two_pass_independence_witness :
    reservedFreeDict [("a", Val.tup .field "h" []),
      ("g", Val.vdict [("b", Val.tup .lazyField "l" [("x", Val.prim 0)])])] = true ∧
    ∀ c ∈ (create (EvaluatedSchema.init [("a", Val.tup .field "h" []),
        ("g", Val.vdict [("b", Val.tup .lazyField "l" [("x", Val.prim 0)])])])
        (fun _ _ _ => .ok (.prim 9))).2.1,
      (EAGER_TYPES c.holder = true → hasKey c.kwargs reservedKey = false) ∧
      (LAZY_TYPES c.holder = true →
        ∃ ER trE static,
          evaluate_eager (fun _ _ _ => .ok (.prim 9))
            (extract_schema [("a", Val.tup .field "h" []),
              ("g", Val.vdict [("b", Val.tup .lazyField "l" [("x", Val.prim 0)])])]
              EAGER_TYPES) = (.ok ER, trE) ∧
          c.kwargs = (reservedKey, .vdict ER) :: static ∧
          hasKey static reservedKey = false) :=
  ⟨by simp [reservedFreeDict, reservedFreeNode, hasKey, reservedKey],
   C2_two_pass_independence _ _
     (by simp [reservedFreeDict, reservedFreeNode, hasKey, reservedKey])⟩

/-! ## Claim C4: a failing generator aborts `create` -/

theorem evaluate_eager_fail_propagates (gen : Gen) (c : Call) (err : PyErr) (s : Dict) :
    c ∈ (evaluate_eager gen s).2 →
    gen c.holder c.handler c.kwargs = .error err →
    (evaluate_eager gen s).1 = .error err := by
  induction s using evaluate_eager.induct gen with
  | case1 => intro hc _; simp [evaluate_eager] at hc
  | case2 k' rest d e tr heq ih =>
    intro hc hf
    simp only [evaluate_eager, heq] at hc ⊢
    have h2 := ih (by rw [heq]; exact hc) hf
    rw [heq] at h2
    simpa using h2
  | case3 k' rest d rs tr heq1 e tr2 heq2 ih1 ih2 =>
    intro hc hf
    simp only [evaluate_eager, heq1, heq2, List.mem_append] at hc ⊢
    rcases hc with hc | hc
    · have h2 := ih1 (by rw [heq1]; exact hc) hf
      rw [heq1] at h2
      cases h2
    · have h2 := ih2 (by rw [heq2]; exact hc) hf
      rw [heq2] at h2
      simpa using h2
  | case4 k' rest d rs tr heq1 rs2 tr2 heq2 ih1 ih2 =>
    intro hc hf
    simp only [evaluate_eager, heq1, heq2, List.mem_append] at hc ⊢
    rcases hc with hc | hc
    · have h2 := ih1 (by rw [heq1]; exact hc) hf
      rw [heq1] at h2
      cases h2
    · have h2 := ih2 (by rw [heq2]; exact hc) hf
      rw [heq2] at h2
      cases h2
  | case5 k' rest h handler kwargs e heq =>
    intro hc hf
    simp only [evaluate_eager, heq, List.mem_singleton] at hc ⊢
    subst hc
    rw [heq] at hf
    simpa using hf
  | case6 k' rest h handler kwargs v heq e tr heq2 ih =>
    intro hc hf
    simp only [evaluate_eager, heq, heq2, List.mem_cons] at hc ⊢
    rcases hc with hc | hc
    · subst hc
      rw [heq] at hf
      cases hf
    · have h2 := ih (by rw [heq2]; exact hc) hf
      rw [heq2] at h2
      simpa using h2
  | case7 k' rest h handler kwargs v heq rs tr heq2 ih =>
    intro hc hf
    simp only [evaluate_eager, heq, heq2, List.mem_cons] at hc ⊢
    rcases hc with hc | hc
    · subst hc
      rw [heq] at hf
      cases hf
    · have h2 := ih (by rw [heq2]; exact hc) hf
      rw [heq2] at h2
      cases h2
  | case8 k' rest n =>
    intro hc _
    simp [evaluate_eager] at hc

theorem evaluate_lazy_fail_propagates (gen : Gen) (c : Call) (err : PyErr) (s er : Dict) :
    c ∈ (evaluate_lazy gen s er).2 →
    gen c.holder c.handler c.kwargs = .error err →
    (evaluate_lazy gen s er).1 = .error err := by
  induction s, er using evaluate_lazy.induct gen with
  | case1 er => intro hc _; simp [evaluate_lazy] at hc
  | case2 er k' rest d e tr heq ih =>
    intro hc hf
    simp only [evaluate_lazy, heq] at hc ⊢
    have h2 := ih (by rw [heq]; exact hc) hf
    rw [heq] at h2
    simpa using h2
  | case3 er k' rest d rs tr heq1 e tr2 heq2 ih1 ih2 =>
    intro hc hf
    simp only [evaluate_lazy, heq1, heq2, List.mem_append] at hc ⊢
    rcases hc with hc | hc
    · have h2 := ih1 (by rw [heq1]; exact hc) hf
      rw [heq1] at h2
      cases h2
    · have h2 := ih2 (by rw [heq2]; exact hc) hf
      rw [heq2] at h2
      simpa using h2
  | case4 er k' rest d rs tr heq1 rs2 tr2 heq2 ih1 ih2 =>
    intro hc hf
    simp only [evaluate_lazy, heq1, heq2, List.mem_append] at hc ⊢
    rcases hc with hc | hc
    · have h2 := ih1 (by rw [heq1]; exact hc) hf
      rw [heq1] at h2
      cases h2
    · have h2 := ih2 (by rw [heq2]; exact hc) hf
      rw [heq2] at h2
      cases h2
  | case5 er k' rest h handler kwargs hdup =>
    intro hc _
    simp only [evaluate_lazy, if_pos hdup] at hc
    simp at hc
  | case6 er k' rest h handler kwargs hdup callKwargs e heq =>
    intro hc hf
    simp only [evaluate_lazy, if_neg hdup, heq, List.mem_singleton] at hc ⊢
    subst hc
    rw [heq] at hf
    simpa using hf
  | case7 er k' rest h handler kwargs hdup callKwargs v heq e tr heq2 ih =>
    intro hc hf
    simp only [evaluate_lazy, if_neg hdup, heq, heq2, List.mem_cons] at hc ⊢
    rcases hc with hc | hc
    · subst hc
      rw [heq] at hf
      cases hf
    · have h2 := ih (by rw [heq2]; exact hc) hf
      rw [heq2] at h2
      simpa using h2
  | case8 er k' rest h handler kwargs hdup callKwargs v heq rs tr heq2 ih =>
    intro hc hf
    simp only [evaluate_lazy, if_neg hdup, heq, heq2, List.mem_cons] at hc ⊢
    rcases hc with hc | hc
    · subst hc
      rw [heq] at hf
      cases hf
    · have h2 := ih (by rw [heq2]; exact hc) hf
      rw [heq2] at h2
      cases h2
  | case9 er k' rest n =>
    intro hc _
    simp [evaluate_lazy] at hc

/-- Claim C4: if any generator invocation actually performed during
`create()` raises, `create()` propagates exactly that failure and
returns no result tree — no partial or degraded output — and the
evaluator's stored `eager_schema` and `lazy_schema` are unchanged: the
post-state of `self` is the evaluator `create` started from. -/
theorem C4_failure_propagation (e : EvaluatedSchema) (gen : Gen) (c : Call) (err : PyErr)
    (hc : c ∈ (create e gen).2.1)
    (hf : gen c.holder c.handler c.kwargs = .error err) :
    (create e gen).1 = .error err ∧ (create e gen).2.2 = e := by
  simp only [create] at hc ⊢
  cases hEe : evaluate_eager gen e.eager_schema with
  | mk resE trE =>
    rw [hEe] at hc
    cases resE with
    | error e2 =>
      dsimp only at hc ⊢
      have h2 := evaluate_eager_fail_propagates gen c err _ (by rw [hEe]; exact hc) hf
      rw [hEe] at h2
      dsimp only at h2
      exact ⟨h2, rfl⟩
    | ok ER =>
      dsimp only at hc ⊢
      cases hLe : evaluate_lazy gen e.lazy_schema ER with
      | mk resL trL =>
        rw [hLe] at hc
        have hc2 : c ∈ trE ++ trL := by
          cases resL <;> simpa using hc
        rcases List.mem_append.mp hc2 with hcE | hcL
        · have h2 := evaluate_eager_fail_propagates gen c err _ (by rw [hEe]; exact hcE) hf
          rw [hEe] at h2
          cases h2
        · have h2 := evaluate_lazy_fail_propagates gen c err _ _ (by rw [hLe]; exact hcL) hf
          rw [hLe] at h2
          dsimp only at h2
          subst h2
          exact ⟨rfl, rfl⟩

/-- Witness for C4: a one-leaf schema under a generator that always
raises; the single performed invocation fails and `create` returns that
failure with the evaluator unchanged. -/
theorem C4_failure_propagation_witness :
    (⟨.field, "h", []⟩ : Call) ∈
      (create (EvaluatedSchema.init [("a", Val.tup .field "h" [])])
        (fun _ _ _ => .error .genFailure)).2.1 ∧
    ((fun (_ : Holder) (_ : String) (_ : Dict) =>
        (.error .genFailure : Except PyErr Val)) Holder.field "h" ([] : Dict)
      = .error .genFailure) ∧
    (create (EvaluatedSchema.init [("a", Val.tup .field "h" [])])
        (fun _ _ _ => .error .genFailure)).1 = .error .genFailure ∧
    (create (EvaluatedSchema.init [("a", Val.tup .field "h" [])])
        (fun _ _ _ => .error .genFailure)).2.2
      = EvaluatedSchema.init [("a", Val.tup .field "h" [])] := by
  refine ⟨?_, rfl, ?_⟩
  · simp [create, evaluate_eager, EvaluatedSchema.init, extract_schema, EAGER_TYPES]
  · exact C4_failure_propagation _ _ ⟨.field, "h", []⟩ .genFailure
      (by simp [create, evaluate_eager, EvaluatedSchema.init, extract_schema, EAGER_TYPES]) rfl

/-! ## Claim C9: a reserved-keyword collision aborts the lazy pass -/

theorem hasDupKwargLeaf_extract : ∀ (S : Dict) (t : Holder → Bool),
    (∀ h, LAZY_TYPES h = true → t h = true) →
    hasDupKwargLeafDict S = true → hasDupKwargLeafDict (extract_schema S t) = true := by
  intro S t
  induction S, t using extract_schema.induct with
  | case1 t => intro _ hbad; simp [hasDupKwargLeafDict] at hbad
  | case2 t k' rest d ih1 ih2 =>
    intro ht hbad
    simp only [hasDupKwargLeafDict, hasDupKwargLeafNode, Bool.or_eq_true] at hbad
    simp only [extract_schema, hasDupKwargLeafDict, hasDupKwargLeafNode, Bool.or_eq_true]
    rcases hbad with hb | hb
    · exact Or.inl (ih1 ht hb)
    · exact Or.inr (ih2 ht hb)
  | case3 t k' rest h handler kwargs hth ih =>
    intro ht hbad
    simp only [hasDupKwargLeafDict, hasDupKwargLeafNode, Bool.or_eq_true,
      Bool.and_eq_true] at hbad
    have hx : extract_schema ((k', Val.tup h handler kwargs) :: rest) t
        = (k', Val.tup h handler kwargs) :: extract_schema rest t := by
      simp [extract_schema, hth]
    rw [hx]
    simp only [hasDupKwargLeafDict, hasDupKwargLeafNode, Bool.or_eq_true, Bool.and_eq_true]
    rcases hbad with hb | hb
    · exact Or.inl hb
    · exact Or.inr (ih ht hb)
  | case4 t k' rest h handler kwargs hth ih =>
    intro ht hbad
    simp only [hasDupKwargLeafDict, hasDupKwargLeafNode, Bool.or_eq_true,
      Bool.and_eq_true] at hbad
    have hx : extract_schema ((k', Val.tup h handler kwargs) :: rest) t
        = extract_schema rest t := by
      simp [extract_schema, hth]
    rw [hx]
    rcases hbad with hb | hb
    · exact absurd (ht h hb.1) hth
    · exact ih ht hb
  | case5 t k' rest n ih =>
    intro ht hbad
    simp only [hasDupKwargLeafDict, hasDupKwargLeafNode, Bool.or_eq_true] at hbad
    have hx : extract_schema ((k', Val.prim n) :: rest) t = extract_schema rest t := by
      simp [extract_schema]
    rw [hx]
    rcases hbad with hb | hb
    · cases hb
    · exact ih ht hb

theorem evaluate_eager_ok (gen : Gen) (hgen : ∀ h n kw, ∃ v, gen h n kw = .ok v) :
    ∀ s : Dict, isSchemaDict s = true → ∃ r, (evaluate_eager gen s).1 = .ok r := by
  intro s
  induction s using evaluate_eager.induct gen with
  | case1 => intro _; exact ⟨[], by simp [evaluate_eager]⟩
  | case2 k' rest d e tr heq ih =>
    intro hS
    simp only [isSchemaDict, isSchemaNode, Bool.and_eq_true] at hS
    obtain ⟨r, hr⟩ := ih hS.1
    rw [heq] at hr
    cases hr
  | case3 k' rest d rs tr heq1 e tr2 heq2 ih1 ih2 =>
    intro hS
    simp only [isSchemaDict, isSchemaNode, Bool.and_eq_true] at hS
    obtain ⟨r, hr⟩ := ih2 hS.2
    rw [heq2] at hr
    cases hr
  | case4 k' rest d rs tr heq1 rs2 tr2 heq2 ih1 ih2 =>
    intro _
    exact ⟨(k', .vdict rs) :: rs2, by simp [evaluate_eager, heq1, heq2]⟩
  | case5 k' rest h handler kwargs e heq =>
    intro _
    obtain ⟨v, hv⟩ := hgen h handler kwargs
    rw [heq] at hv
    cases hv
  | case6 k' rest h handler kwargs v heq e tr heq2 ih =>
    intro hS
    simp only [isSchemaDict, isSchemaNode, Bool.and_eq_true] at hS
    obtain ⟨r, hr⟩ := ih hS.2
    rw [heq2] at hr
    cases hr
  | case7 k' rest h handler kwargs v heq rs tr heq2 ih =>
    intro _
    exact ⟨(k', v) :: rs, by simp [evaluate_eager, heq, heq2]⟩
  | case8 k' rest n =>
    intro hS
    simp [isSchemaDict, isSchemaNode] at hS

theorem evaluate_lazy_total (gen : Gen) (hgen : ∀ h n kw, ∃ v, gen h n kw = .ok v)
    (s er : Dict) : isSchemaDict s = true →
    allLeavesHolderDict s LAZY_TYPES = true →
    (hasDupKwargLeafDict s = false → ∃ r, (evaluate_lazy gen s er).1 = .ok r) ∧
    (hasDupKwargLeafDict s = true →
      (evaluate_lazy gen s er).1 = .error .dupKwargError) := by
  induction s, er using evaluate_lazy.induct gen with
  | case1 er =>
    intro _ _
    exact ⟨fun _ => ⟨[], by simp [evaluate_lazy]⟩, fun h => by simp [hasDupKwargLeafDict] at h⟩
  | case2 er k' rest d e tr heq ih =>
    intro hS hal
    simp only [isSchemaDict, isSchemaNode, Bool.and_eq_true] at hS
    simp only [allLeavesHolderDict, allLeavesHolderNode, Bool.and_eq_true] at hal
    have ihd := ih hS.1 hal.1
    have hdup : hasDupKwargLeafDict d = true := by
      cases hd : hasDupKwargLeafDict d
      · obtain ⟨r, hr⟩ := ihd.1 hd
        rw [heq] at hr
        cases hr
      · rfl
    have herr := ihd.2 hdup
    rw [heq] at herr
    dsimp only at herr
    injection herr with herr
    subst herr
    constructor
    · intro hclean
      simp [hasDupKwargLeafDict, hasDupKwargLeafNode, hdup] at hclean
    · intro _
      simp [evaluate_lazy, heq]
  | case3 er k' rest d rs tr heq1 e tr2 heq2 ih1 ih2 =>
    intro hS hal
    simp only [isSchemaDict, isSchemaNode, Bool.and_eq_true] at hS
    simp only [allLeavesHolderDict, allLeavesHolderNode, Bool.and_eq_true] at hal
    have ihr := ih2 hS.2 hal.2
    have hdup : hasDupKwargLeafDict rest = true := by
      cases hd : hasDupKwargLeafDict rest
      · obtain ⟨r, hr⟩ := ihr.1 hd
        rw [heq2] at hr
        cases hr
      · rfl
    have herr := ihr.2 hdup
    rw [heq2] at herr
    dsimp only at herr
    injection herr with herr
    subst herr
    constructor
    · intro hclean
      simp [hasDupKwargLeafDict, hasDupKwargLeafNode, hdup] at hclean
    · intro _
      simp [evaluate_lazy, heq1, heq2]
  | case4 er k' rest d rs tr heq1 rs2 tr2 heq2 ih1 ih2 =>
    intro hS hal
    simp only [isSchemaDict, isSchemaNode, Bool.and_eq_true] at hS
    simp only [allLeavesHolderDict, allLeavesHolderNode, Bool.and_eq_true] at hal
    refine ⟨fun _ => ⟨(k', .vdict rs) :: rs2, by simp [evaluate_lazy, heq1, heq2]⟩, ?_⟩
    intro hdup
    simp only [hasDupKwargLeafDict, hasDupKwargLeafNode, Bool.or_eq_true] at hdup
    rcases hdup with h | h
    · have herr := (ih1 hS.1 hal.1).2 h
      rw [heq1] at herr
      cases herr
    · have herr := (ih2 hS.2 hal.2).2 h
      rw [heq2] at herr
      cases herr
  | case5 er k' rest h handler kwargs hdup =>
    intro hS hal
    simp only [allLeavesHolderDict, allLeavesHolderNode, Bool.and_eq_true] at hal
    constructor
    · intro hclean
      simp [hasDupKwargLeafDict, hasDupKwargLeafNode, hal.1, hdup] at hclean
    · intro _
      simp [evaluate_lazy, hdup]
  | case6 er k' rest h handler kwargs hdup callKwargs e heq =>
    intro _ _
    obtain ⟨v, hv⟩ := hgen h handler callKwargs
    rw [heq] at hv
    cases hv
  | case7 er k' rest h handler kwargs hdup callKwargs v heq e tr heq2 ih =>
    intro hS hal
    simp only [isSchemaDict, isSchemaNode, Bool.and_eq_true] at hS
    simp only [allLeavesHolderDict, allLeavesHolderNode, Bool.and_eq_true] at hal
    have ihr := ih hS.2 hal.2
    have hdup2 : hasDupKwargLeafDict rest = true := by
      cases hd : hasDupKwargLeafDict rest
      · obtain ⟨r, hr⟩ := ihr.1 hd
        rw [heq2] at hr
        cases hr
      · rfl
    have herr := ihr.2 hdup2
    rw [heq2] at herr
    dsimp only at herr
    injection herr with herr
    subst herr
    constructor
    · intro hclean
      simp [hasDupKwargLeafDict, hasDupKwargLeafNode, hdup2] at hclean
    · intro _
      simp [evaluate_lazy, if_neg hdup, heq, heq2]
  | case8 er k' rest h handler kwargs hdup callKwargs v heq rs tr heq2 ih =>
    intro hS hal
    simp only [allLeavesHolderDict, allLeavesHolderNode, Bool.and_eq_true] at hal
    refine ⟨fun _ => ⟨(k', v) :: rs, by simp [evaluate_lazy, if_neg hdup, heq, heq2]⟩, ?_⟩
    intro hd
    simp only [hasDupKwargLeafDict, hasDupKwargLeafNode, Bool.or_eq_true,
      Bool.and_eq_true] at hd
    rcases hd with hh | hh
    · exact absurd hh.2 (by simpa using hdup)
    · have ihr := ih (by simp_all [isSchemaDict, isSchemaNode]) hal.2
      have herr := ihr.2 hh
      rw [heq2] at herr
      cases herr
  | case9 er k' rest n =>
    intro hS _
    simp [isSchemaDict, isSchemaNode] at hS

/-- Claim C9: for a schema containing a `LazyField` leaf whose static
argument mapping already holds the reserved key `"_eager_data"`,
`create()` — under generators that themselves never raise — fails with
the duplicate-keyword `TypeError` raised at that leaf's invocation: the
reserved eager-context keyword is neither silently overridden by nor
merged with the caller-supplied argument of the same name. -/
theorem C9_reserved_kwarg_collision (S : Dict) (gen : Gen)
    (hS : isSchemaDict S = true)
    (hgen : ∀ h n kw, ∃ v, gen h n kw = .ok v)
    (hbad : hasDupKwargLeafDict S = true) :
    (create (EvaluatedSchema.init S) gen).1 = .error .dupKwargError := by
  obtain ⟨ER, hER⟩ := evaluate_eager_ok gen hgen _ (isSchemaDict_extract hS)
  simp only [create, EvaluatedSchema.init]
  cases hEe : evaluate_eager gen (extract_schema S EAGER_TYPES) with
  | mk resE trE =>
    rw [hEe] at hER
    dsimp only at hER
    subst hER
    dsimp only
    have hlazy := (evaluate_lazy_total gen hgen (extract_schema S LAZY_TYPES) ER
        (isSchemaDict_extract hS) (allLeavesHolder_extract S LAZY_TYPES)).2
      (hasDupKwargLeaf_extract S LAZY_TYPES (fun _ hh => hh) hbad)
    cases hLe : evaluate_lazy gen (extract_schema S LAZY_TYPES) ER with
    | mk resL trL =>
      rw [hLe] at hlazy
      dsimp only at hlazy
      subst hlazy
      rfl

/-- Witness for C9: a lazy leaf whose static kwargs contain
`"_eager_data"`, under an always-succeeding generator. -/
theorem C9_reserved_kwarg_collision_witness :
    isSchemaDict [("owner", Val.vdict [("email", Val.tup .lazyField "custom_email"
        [("_eager_data", Val.prim 0)])])] = true ∧
    (∀ h n kw, ∃ v, (fun (_ : Holder) (_ : String) (_ : Dict) =>
        (.ok (.prim 7) : Except PyErr Val)) h n kw = .ok v) ∧
    hasDupKwargLeafDict [("owner", Val.vdict [("email", Val.tup .lazyField "custom_email"
        [("_eager_data", Val.prim 0)])])] = true ∧
    (create (EvaluatedSchema.init [("owner", Val.vdict [("email",
        Val.tup .lazyField "custom_email" [("_eager_data", Val.prim 0)])])])
      (fun _ _ _ => .ok (.prim 7))).1 = .error .dupKwargError := by
  refine ⟨by simp [isSchemaDict, isSchemaNode], fun h n kw => ⟨.prim 7, rfl⟩, ?_, ?_⟩
  · simp [hasDupKwargLeafDict, hasDupKwargLeafNode, LAZY_TYPES, hasKey, reservedKey]
  · exact C9_reserved_kwarg_collision _ _ (by simp [isSchemaDict, isSchemaNode])
      (fun h n kw => ⟨.prim 7, rfl⟩)
      (by simp [hasDupKwargLeafDict, hasDupKwargLeafNode, LAZY_TYPES, hasKey, reservedKey])

/-! ## Claim C8: fresh group dicts, shared leaf tuples -/

theorem extractHD_spec (ls : LeafStore) (t : Holder → Bool) :
    ∀ (st : DictStore) (schema : List (String × HTree)),
      (∃ ext, (extractHD ls t st schema).1 = st ++ ext) ∧
      (∀ a ∈ groupAddrsD (extractHD ls t st schema).2,
        st.length ≤ a ∧ a < (extractHD ls t st schema).1.length) ∧
      (groupAddrsD (extractHD ls t st schema).2).Nodup ∧
      (∀ a ∈ leafAddrsD (extractHD ls t st schema).2, a ∈ leafAddrsD schema) := by
  intro st schema
  induction st, schema using extractHD.induct ls t with
  | case1 st =>
    refine ⟨⟨[], by simp [extractHD]⟩, ?_, ?_, ?_⟩ <;>
      simp [extractHD, groupAddrsD, leafAddrsD]
  | case2 st node_name rest addr d p ih1 ih2 =>
    unfold p at ih2
    obtain ⟨⟨ext1, hp1⟩, hg1, hnd1, hl1⟩ := ih1
    obtain ⟨⟨ext2, hq1⟩, hg2, hnd2, hl2⟩ := ih2
    have hres : extractHD ls t st ((node_name, HTree.group addr d) :: rest)
        = ((extractHD ls t ((extractHD ls t st d).1
              ++ [entriesRefs (extractHD ls t st d).2]) rest).1,
           (node_name, HTree.group (extractHD ls t st d).1.length
              (extractHD ls t st d).2) ::
           (extractHD ls t ((extractHD ls t st d).1
              ++ [entriesRefs (extractHD ls t st d).2]) rest).2) := by
      simp [extractHD]
    rw [hres]
    dsimp only
    have hplen : (extractHD ls t st d).1.length = st.length + ext1.length := by
      rw [hp1]; simp
    have hqlen : (extractHD ls t ((extractHD ls t st d).1
        ++ [entriesRefs (extractHD ls t st d).2]) rest).1.length
        = (extractHD ls t st d).1.length + 1 + ext2.length := by
      rw [hq1]
      simp only [List.length_append, List.length_singleton]
    refine ⟨⟨ext1 ++ [entriesRefs (extractHD ls t st d).2] ++ ext2, by
      rw [hq1, hp1]; simp⟩, ?_, ?_, ?_⟩
    · intro a ha
      simp only [groupAddrsD, groupAddrsT, List.cons_append, List.mem_cons,
        List.mem_append] at ha
      rcases ha with rfl | ha | ha
      · constructor
        · omega
        · omega
      · have := hg1 a ha
        constructor
        · exact this.1
        · omega
      · have := hg2 a ha
        constructor
        · rw [hp1] at this
          simp at this
          omega
        · exact this.2
    · simp only [groupAddrsD, groupAddrsT, List.cons_append]
      rw [List.nodup_cons]
      constructor
      · intro hmem
        rw [List.mem_append] at hmem
        rcases hmem with hmem | hmem
        · exact absurd (hg1 _ hmem).2 (by omega)
        · have := (hg2 _ hmem).1
          rw [hp1] at this
          simp at this
      · refine List.Nodup.append hnd1 hnd2 ?_
        intro a ha1 ha2
        have h1 := (hg1 a ha1).2
        have h2 := (hg2 a ha2).1
        rw [hp1] at h2
        simp at h2
        omega
    · intro a ha
      simp only [groupAddrsD, leafAddrsD, leafAddrsT, List.mem_append] at ha ⊢
      rcases ha with ha | ha
      · exact Or.inl (hl1 a ha)
      · exact Or.inr (hl2 a ha)
  | case3 st node_name rest a hth ih =>
    obtain ⟨⟨ext, hq⟩, hg, hnd, hl⟩ := ih
    have hres : extractHD ls t st ((node_name, HTree.leaf a) :: rest)
        = ((extractHD ls t st rest).1,
           (node_name, HTree.leaf a) :: (extractHD ls t st rest).2) := by
      have hth' : t ((ls[a]?).getD ⟨.other, "", 0⟩).holder = true := by simpa using hth
      simp [extractHD, hth']
    rw [hres]
    refine ⟨⟨ext, hq⟩, ?_, ?_, ?_⟩
    · intro b hb
      simp only [groupAddrsD, groupAddrsT, List.nil_append] at hb
      exact hg b hb
    · simpa [groupAddrsD, groupAddrsT] using hnd
    · intro b hb
      simp only [leafAddrsD, leafAddrsT, List.mem_append, List.mem_singleton,
        List.singleton_append, List.mem_cons] at hb ⊢
      rcases hb with rfl | hb
      · exact Or.inl rfl
      · exact Or.inr (hl b hb)
  | case4 st node_name rest a hth ih =>
    obtain ⟨⟨ext, hq⟩, hg, hnd, hl⟩ := ih
    have hres : extractHD ls t st ((node_name, HTree.leaf a) :: rest)
        = extractHD ls t st rest := by
      have hth' : t ((ls[a]?).getD ⟨.other, "", 0⟩).holder = false := by simpa using hth
      simp [extractHD, hth']
    rw [hres]
    refine ⟨⟨ext, hq⟩, hg, hnd, ?_⟩
    intro b hb
    simp only [leafAddrsD, leafAddrsT, List.singleton_append, List.mem_cons]
    exact Or.inr (hl b hb)

theorem extractHD_erase (ls : LeafStore) (t : Holder → Bool) :
    ∀ (st : DictStore) (schema : List (String × HTree)),
      eraseD ls (extractHD ls t st schema).2 = extract_schema (eraseD ls schema) t := by
  intro st schema
  induction st, schema using extractHD.induct ls t with
  | case1 st => simp [extractHD, eraseD, extract_schema]
  | case2 st node_name rest addr d p ih1 ih2 =>
    unfold p at ih2
    have hres : extractHD ls t st ((node_name, HTree.group addr d) :: rest)
        = ((extractHD ls t ((extractHD ls t st d).1
              ++ [entriesRefs (extractHD ls t st d).2]) rest).1,
           (node_name, HTree.group (extractHD ls t st d).1.length
              (extractHD ls t st d).2) ::
           (extractHD ls t ((extractHD ls t st d).1
              ++ [entriesRefs (extractHD ls t st d).2]) rest).2) := by
      simp [extractHD]
    rw [hres]
    simp only [eraseD, eraseT, extract_schema, ih1, ih2]
  | case3 st node_name rest a hth ih =>
    have hres : extractHD ls t st ((node_name, HTree.leaf a) :: rest)
        = ((extractHD ls t st rest).1,
           (node_name, HTree.leaf a) :: (extractHD ls t st rest).2) := by
      have hth' : t ((ls[a]?).getD ⟨.other, "", 0⟩).holder = true := by simpa using hth
      simp [extractHD, hth']
    rw [hres]
    simp only [eraseD, eraseT, extract_schema, hth, if_true, ih]
  | case4 st node_name rest a hth ih =>
    have hres : extractHD ls t st ((node_name, HTree.leaf a) :: rest)
        = extractHD ls t st rest := by
      have hth' : t ((ls[a]?).getD ⟨.other, "", 0⟩).holder = false := by simpa using hth
      simp [extractHD, hth']
    rw [hres]
    rw [ih]
    simp only [eraseD, eraseT, extract_schema]
    rw [if_neg hth]

/-- Claim C8: over the heap model, `_extract_schema` (for every schema
tree and every target-kinds set) never mutates or drops an existing
object — the original dict store is a prefix of the final one — and
returns a newly allocated tree: the returned dict and every group dict
inside it are fresh addresses (distinct from every input group dict and
pairwise distinct), while every leaf entry in the output is the
identical, reference-shared tuple address from the input.  Erasing the
addresses recovers exactly the plain-model `extract_schema`. -/
theorem C8_fresh_groups_shared_leaves (ls : LeafStore) (t : Holder → Bool)
    (st : DictStore) (schema : List (String × HTree))
    (hvalid : ∀ a ∈ groupAddrsD schema, a < st.length) :
    (∃ ext, (extract_schemaH ls t st schema).1 = st ++ ext) ∧
    (∀ a ∈ groupAddrsT (extract_schemaH ls t st schema).2,
      st.length ≤ a ∧ a ∉ groupAddrsD schema) ∧
    (groupAddrsT (extract_schemaH ls t st schema).2).Nodup ∧
    (∀ a ∈ leafAddrsT (extract_schemaH ls t st schema).2, a ∈ leafAddrsD schema) ∧
    eraseT ls (extract_schemaH ls t st schema).2
      = .vdict (extract_schema (eraseD ls schema) t) := by
  obtain ⟨⟨ext1, hst⟩, hg, hnd, hl⟩ := extractHD_spec ls t st schema
  have hplen : st.length ≤ (extractHD ls t st schema).1.length := by
    rw [hst]; simp
  refine ⟨⟨ext1 ++ [entriesRefs (extractHD ls t st schema).2], by
      simp only [extract_schemaH]; rw [hst]; simp⟩, ?_, ?_, ?_, ?_⟩
  · intro a ha
    simp only [extract_schemaH, groupAddrsT, List.mem_cons] at ha
    have hbound : st.length ≤ a := by
      rcases ha with rfl | ha
      · exact hplen
      · exact (hg a ha).1
    exact ⟨hbound, fun hmem => absurd (hvalid a hmem) (by omega)⟩
  · simp only [extract_schemaH, groupAddrsT]
    rw [List.nodup_cons]
    refine ⟨fun hmem => absurd (hg _ hmem).2 (by omega), hnd⟩
  · intro a ha
    simp only [extract_schemaH, leafAddrsT] at ha
    exact hl a ha
  · simp only [extract_schemaH, eraseT]
    rw [extractHD_erase]

/-- Witness for C8 on a two-leaf schema (one lazy, one eager) nested in
a group, with a non-trivial initial store. -/
theorem C8_fresh_groups_shared_leaves_witness :
    (∀ a ∈ groupAddrsD [("owner", HTree.group 0 [("email", HTree.leaf 0),
        ("creator", HTree.leaf 1)])], a < ([[("z", HRef.leafRef 0)]] : DictStore).length) ∧
    ((∃ ext, (extract_schemaH [⟨.lazyField, "custom_email", 0⟩, ⟨.field, "full_name", 1⟩]
          EAGER_TYPES [[("z", HRef.leafRef 0)]]
          [("owner", HTree.group 0 [("email", HTree.leaf 0), ("creator", HTree.leaf 1)])]).1
        = [[("z", HRef.leafRef 0)]] ++ ext) ∧
      (∀ a ∈ groupAddrsT (extract_schemaH [⟨.lazyField, "custom_email", 0⟩,
            ⟨.field, "full_name", 1⟩] EAGER_TYPES [[("z", HRef.leafRef 0)]]
            [("owner", HTree.group 0 [("email", HTree.leaf 0),
              ("creator", HTree.leaf 1)])]).2,
        ([[("z", HRef.leafRef 0)]] : DictStore).length ≤ a ∧
          a ∉ groupAddrsD [("owner", HTree.group 0 [("email", HTree.leaf 0),
            ("creator", HTree.leaf 1)])]) ∧
      (groupAddrsT (extract_schemaH [⟨.lazyField, "custom_email", 0⟩,
          ⟨.field, "full_name", 1⟩] EAGER_TYPES [[("z", HRef.leafRef 0)]]
          [("owner", HTree.group 0 [("email", HTree.leaf 0),
            ("creator", HTree.leaf 1)])]).2).Nodup ∧
      (∀ a ∈ leafAddrsT (extract_schemaH [⟨.lazyField, "custom_email", 0⟩,
            ⟨.field, "full_name", 1⟩] EAGER_TYPES [[("z", HRef.leafRef 0)]]
            [("owner", HTree.group 0 [("email", HTree.leaf 0),
              ("creator", HTree.leaf 1)])]).2,
        a ∈ leafAddrsD [("owner", HTree.group 0 [("email", HTree.leaf 0),
          ("creator", HTree.leaf 1)])]) ∧
      eraseT [⟨.lazyField, "custom_email", 0⟩, ⟨.field, "full_name", 1⟩]
          (extract_schemaH [⟨.lazyField, "custom_email", 0⟩, ⟨.field, "full_name", 1⟩]
            EAGER_TYPES [[("z", HRef.leafRef 0)]]
            [("owner", HTree.group 0 [("email", HTree.leaf 0),
              ("creator", HTree.leaf 1)])]).2
        = .vdict (extract_schema (eraseD [⟨.lazyField, "custom_email", 0⟩,
            ⟨.field, "full_name", 1⟩]
            [("owner", HTree.group 0 [("email", HTree.leaf 0),
              ("creator", HTree.leaf 1)])]) EAGER_TYPES)) := by
  refine ⟨?_, C8_fresh_groups_shared_leaves _ _ _ _ ?_⟩ <;>
    simp [groupAddrsD, groupAddrsT]

end SchemaDemo
